import Mathlib

/-!
# CustomVector (custom_vector/custom_vector.hpp)

A shallow embedding of the `CustomVector<T>` class template and a verification of the
properties stated for it.

Modelling decisions:

* The free store is explicit (`Heap`): `new T[n]` creates a fresh block of `n`
  default-constructed elements, `delete[]` retires a block, and every read or write of
  `data_arr[i]` is checked against the block it points into.  A read or write outside a live
  block is undefined behaviour in C++ and is reported as `Result.undefined`.
* A thrown C++ exception is `Result.throw`; it carries the state the object is left in.
* `size_t` is a 64-bit unsigned integer, `double` is IEEE-754 binary64 with
  round-to-nearest-even (`round_to_double`).  The general results about growth are stated for
  capacities `c` with `3 * c < 2 ^ 53`, where the product `c * 1.5` is exact.
* `T` must be default-constructible for `new T[n]` to compile: `[Inhabited T]`.
* The allocator either has memory or has none (`Heap.exhausted`); results that need an
  allocation to succeed assume it has.
* Objects are passed by value in and out of the functions; the one place where the identity of
  an object matters, `this == &other` in the assignment operators, is the case `other = none`
  of `St2`.
* The `const T &` parameter of `push_back` is a reference (`Arg`): either an object outside the
  free store, or an element of an array, which is read when the function uses the parameter.
-/

namespace CV

/-! ## Outcomes -/

/-- The C++ exceptions the class can raise. -/
inductive Exn where
  | out_of_range
  | bad_alloc
  deriving DecidableEq, Repr

/-- Outcome of running a piece of the program from some state: normal return with a value,
an exception propagating out (the state persists), or undefined behaviour. -/
inductive Result (σ α : Type) where
  | ok (value : α) (state : σ)
  | throw (e : Exn) (state : σ)
  | undefined
  deriving DecidableEq, Repr

/-- Sequencing of two program pieces: exceptions and undefined behaviour propagate. -/
def Result.bind {σ α β : Type} (r : Result σ α) (f : α → σ → Result σ β) : Result σ β :=
  match r with
  | .ok a s => f a s
  | .throw e s => .throw e s
  | .undefined => .undefined

/-! ## The free store -/

/-- The free store.  Address `0` is `nullptr`; address `a + 1` names `blocks[a]`, which is
`some b` while the array is live and `none` once it has been released.  `exhausted` says
whether the allocator refuses requests (`new` throws `std::bad_alloc`). -/
structure Heap (T : Type) where
  blocks : List (Option (List T))
  exhausted : Bool
  deriving DecidableEq, Repr

/-- A `T*` into an array: the array it points into and the offset (used for `T&`, `iterator`). -/
structure Ref where
  addr : Nat
  index : Nat
  deriving DecidableEq, Repr

/-- The live array a pointer designates, if any. -/
def Heap.block {T : Type} (h : Heap T) (p : Nat) : Option (List T) :=
  match p with
  | 0 => none
  | a + 1 =>
    match h.blocks[a]? with
    | some (some b) => some b
    | _ => none

/-- The expression `new T[n]`: a fresh array of `n` default-constructed elements, or `none`
when the allocator throws `std::bad_alloc`. -/
def Heap.new_array {T : Type} [Inhabited T] (h : Heap T) (n : Nat) : Option (Nat × Heap T) :=
  if h.exhausted then none
  else some (h.blocks.length + 1, { h with blocks := h.blocks ++ [some (List.replicate n default)] })

/-- The statement `delete[] p`: a no-op on `nullptr`, releases a live array, and is undefined
behaviour (`none`) on anything else. -/
def Heap.delete_array {T : Type} (h : Heap T) (p : Nat) : Option (Heap T) :=
  match p with
  | 0 => some h
  | a + 1 =>
    match h.blocks[a]? with
    | some (some _) => some { h with blocks := h.blocks.set a none }
    | _ => none

/-- Reading `p[i]`; `none` is undefined behaviour (null, released, or out of the array). -/
def Heap.load {T : Type} (h : Heap T) (p i : Nat) : Option T :=
  match h.block p with
  | some b => b[i]?
  | none => none

/-- Writing `p[i] = x`; `none` is undefined behaviour (null, released, or out of the array). -/
def Heap.store {T : Type} (h : Heap T) (p i : Nat) (x : T) : Option (Heap T) :=
  match p with
  | 0 => none
  | a + 1 =>
    match h.blocks[a]? with
    | some (some b) =>
      if i < b.length then some { h with blocks := h.blocks.set a (some (b.set i x)) } else none
    | _ => none

/-- What a `const T &` parameter is bound to.  `value x`: an object outside the free store (a
temporary such as `i * 10`, or a variable of the caller), which holds `x` whatever happens to
the arrays.  `ref r`: an element of an array of the free store (such as `v[0]`), which is read
through the reference at the moment the function uses the parameter. -/
inductive Arg (T : Type) where
  | value (x : T)
  | ref (r : Ref)
  deriving DecidableEq, Repr

/-- Reading through a `const T &` parameter; `none` is undefined behaviour (the element it
refers to is not in a live array any more). -/
def Arg.read {T : Type} (a : Arg T) (h : Heap T) : Option T :=
  match a with
  | .value x => some x
  | .ref r => h.load r.addr r.index

/-! ## The class -/

/-- The data members of `CustomVector<T>`. -/
structure CustomVector where
  data_arr : Nat
  current_capacity : Nat
  current_size : Nat
  deriving DecidableEq, Repr

/-- What a member function runs on: the free store and the object `*this`. -/
structure St (T : Type) where
  heap : Heap T
  self : CustomVector
  deriving DecidableEq, Repr

/-- What an assignment operator runs on: the free store, `*this`, and the argument `other`.
`other = none` means that the argument is `*this` itself (`this == &other`). -/
structure St2 (T : Type) where
  heap : Heap T
  self : CustomVector
  other : Option CustomVector
  deriving DecidableEq, Repr

/-- Conversion of a non-negative integer to the nearest `double` (53 significant bits, ties to
even).  The result is again an integer. -/
def round_to_double (n : Nat) : Nat :=
  if n < 2 ^ 53 then n
  else
    let sh := Nat.log2 n - 52
    let q := n / 2 ^ sh
    let r := n % 2 ^ sh
    let half := 2 ^ (sh - 1)
    if r > half ∨ (r = half ∧ q % 2 = 1) then (q + 1) * 2 ^ sh else q * 2 ^ sh

/-- The statement `current_capacity *= GROWTH_FACTOR` with `GROWTH_FACTOR = 1.5`: the capacity is
converted to `double`, multiplied by `1.5` (the exact product is `3 * d / 2`; halving is exact in
binary floating point, so the rounded product is `round_to_double (3 * d) / 2`), and converted
back to `size_t` by truncation.  `none`: the value does not fit `size_t` (undefined behaviour). -/
def grow_capacity (c : Nat) : Option Nat :=
  let truncated := round_to_double (3 * round_to_double c) / 2
  if truncated < 2 ^ 64 then some truncated else none

namespace CustomVector

/-- `CustomVector()`: capacity 1, size 0, `data_arr = new T[current_capacity]`. -/
def ctor_default {T : Type} [Inhabited T] (h : Heap T) : Result (Heap T) CustomVector :=
  match h.new_array 1 with
  | none => .throw .bad_alloc h
  | some (p, h1) => .ok { data_arr := p, current_capacity := 1, current_size := 0 } h1

/-- `CustomVector(size_t capacity)`. -/
def ctor_capacity {T : Type} [Inhabited T] (h : Heap T) (capacity : Nat) :
    Result (Heap T) CustomVector :=
  match h.new_array capacity with
  | none => .throw .bad_alloc h
  | some (p, h1) => .ok { data_arr := p, current_capacity := capacity, current_size := 0 } h1

/-- `capacity() const`. -/
def capacity (v : CustomVector) : Nat := v.current_capacity

/-- `size() const`. -/
def size (v : CustomVector) : Nat := v.current_size

/-- `empty()`. -/
def empty (v : CustomVector) : Bool := v.current_size == 0

/-- `operator[](size_t index) -> T &`. -/
def operator_index {T : Type} (s : St T) (index : Nat) : Result (St T) Ref :=
  if index ≥ s.self.current_size then .throw .out_of_range s
  else .ok ⟨s.self.data_arr, index⟩ s

/-- `operator[](size_t index) const -> const T &`. -/
def operator_index_const {T : Type} (s : St T) (index : Nat) : Result (St T) Ref :=
  if index ≥ s.self.current_size then .throw .out_of_range s
  else .ok ⟨s.self.data_arr, index⟩ s

/-- `at(size_t index) -> T &`. -/
def at_ {T : Type} (s : St T) (index : Nat) : Result (St T) Ref :=
  if index ≥ s.self.current_size then .throw .out_of_range s
  else .ok ⟨s.self.data_arr, index⟩ s

/-- `at(size_t index) const -> const T &`. -/
def at_const {T : Type} (s : St T) (index : Nat) : Result (St T) Ref :=
  if index ≥ s.self.current_size then .throw .out_of_range s
  else .ok ⟨s.self.data_arr, index⟩ s

/-- `front() -> T &`. -/
def front {T : Type} (s : St T) : Result (St T) Ref :=
  if s.self.current_size = 0 then .throw .out_of_range s
  else .ok ⟨s.self.data_arr, 0⟩ s

/-- `front() const -> const T &`. -/
def front_const {T : Type} (s : St T) : Result (St T) Ref :=
  if s.self.current_size = 0 then .throw .out_of_range s
  else .ok ⟨s.self.data_arr, 0⟩ s

/-- `back() -> T &`. -/
def back {T : Type} (s : St T) : Result (St T) Ref :=
  if s.self.current_size = 0 then .throw .out_of_range s
  else .ok ⟨s.self.data_arr, s.self.current_size - 1⟩ s

/-- `back() const -> const T &`. -/
def back_const {T : Type} (s : St T) : Result (St T) Ref :=
  if s.self.current_size = 0 then .throw .out_of_range s
  else .ok ⟨s.self.data_arr, s.self.current_size - 1⟩ s

/-- The loop `for (i = 0; i < current_size; ++i) new_data_arr[i] = data_arr[i];` of `resize`,
with `count` iterations left and the loop variable at `i`.  `none`: undefined behaviour. -/
def copy_loop {T : Type} (dst src : Nat) : (count i : Nat) → Heap T → Option (Heap T)
  | 0, _, h => some h
  | k + 1, i, h =>
    match h.load src i with
    | none => none
    | some x =>
      match h.store dst i x with
      | none => none
      | some h1 => copy_loop dst src k (i + 1) h1

/-- `resize()`: the growth step. -/
def resize {T : Type} [Inhabited T] (s : St T) : Result (St T) Unit :=
  match grow_capacity s.self.current_capacity with
  | none => .undefined
  | some c =>
    let v1 : CustomVector := { s.self with current_capacity := c }
    match s.heap.new_array v1.current_capacity with
    | none => .throw .bad_alloc ⟨s.heap, v1⟩
    | some (new_data_arr, h1) =>
      match copy_loop new_data_arr v1.data_arr v1.current_size 0 h1 with
      | none => .undefined
      | some h2 =>
        match h2.delete_array v1.data_arr with
        | none => .undefined
        | some h3 => .ok () ⟨h3, { v1 with data_arr := new_data_arr }⟩

/-- `push_back(const T &element)`.  The parameter is a reference: it is read in the statement
`data_arr[current_size] = element`, that is after `resize()` has released the old array. -/
def push_back {T : Type} [Inhabited T] (s : St T) (element : Arg T) : Result (St T) Unit :=
  (if s.self.current_size = s.self.current_capacity then resize s else .ok () s).bind
    fun _ s1 =>
      match element.read s1.heap with
      | none => .undefined
      | some x =>
        match s1.heap.store s1.self.data_arr s1.self.current_size x with
        | none => .undefined
        | some h =>
          .ok () ⟨h, { s1.self with current_size := (s1.self.current_size + 1) % 2 ^ 64 }⟩

/-- `pop_back()`. -/
def pop_back {T : Type} (s : St T) : Result (St T) Unit :=
  if s.self.current_size > 0 then
    .ok () { s with self := { s.self with current_size := s.self.current_size - 1 } }
  else .ok () s

/-- The loop `for (i = 0; i < current_size; ++i) data_arr[i] = other_instance[i];` of the copy
constructor and of copy assignment; `other_instance[i]` is the checked `operator[] const`. -/
def copy_from {T : Type} (other : CustomVector) (dst : Nat) :
    (count i : Nat) → Heap T → Result (Heap T) Unit
  | 0, _, h => .ok () h
  | k + 1, i, h =>
    match operator_index_const ⟨h, other⟩ i with
    | .undefined => .undefined
    | .throw e s => .throw e s.heap
    | .ok r s =>
      match s.heap.load r.addr r.index with
      | none => .undefined
      | some x =>
        match s.heap.store dst i x with
        | none => .undefined
        | some h1 => copy_from other dst k (i + 1) h1

/-- `CustomVector(const CustomVector &other_instance)`. -/
def ctor_copy {T : Type} [Inhabited T] (h : Heap T) (other_instance : CustomVector) :
    Result (Heap T) CustomVector :=
  let v : CustomVector :=
    { data_arr := 0, current_capacity := other_instance.current_capacity,
      current_size := other_instance.current_size }
  match h.new_array v.current_capacity with
  | none => .throw .bad_alloc h
  | some (p, h1) =>
    match copy_from other_instance p v.current_size 0 h1 with
    | .undefined => .undefined
    | .throw e h2 => .throw e h2
    | .ok _ h2 => .ok { v with data_arr := p } h2

/-- `operator=(const CustomVector &other_instance)`. -/
def assign_copy {T : Type} [Inhabited T] (s : St2 T) : Result (St2 T) Unit :=
  match s.other with
  | none => .ok () s
  | some other_instance =>
    match s.heap.delete_array s.self.data_arr with
    | none => .undefined
    | some h1 =>
      let v1 : CustomVector :=
        { s.self with current_capacity := other_instance.current_capacity,
                      current_size := other_instance.current_size }
      match h1.new_array v1.current_capacity with
      | none => .throw .bad_alloc ⟨h1, v1, s.other⟩
      | some (p, h2) =>
        let v2 : CustomVector := { v1 with data_arr := p }
        match copy_from other_instance v2.data_arr v2.current_size 0 h2 with
        | .undefined => .undefined
        | .throw e h3 => .throw e ⟨h3, v2, s.other⟩
        | .ok _ h3 => .ok () ⟨h3, v2, s.other⟩

/-- `CustomVector(CustomVector &&other) noexcept`: returns the new object and what is left of
`other`. -/
def ctor_move (other : CustomVector) : CustomVector × CustomVector :=
  ({ data_arr := other.data_arr, current_capacity := other.current_capacity,
     current_size := other.current_size },
   { data_arr := 0, current_capacity := 0, current_size := 0 })

/-- `operator=(CustomVector &&other) noexcept`. -/
def assign_move {T : Type} (s : St2 T) : Result (St2 T) Unit :=
  match s.other with
  | none => .ok () s
  | some other =>
    match s.heap.delete_array s.self.data_arr with
    | none => .undefined
    | some h1 =>
      .ok () ⟨h1, { data_arr := other.data_arr, current_capacity := other.current_capacity,
                    current_size := other.current_size },
              some { data_arr := 0, current_capacity := 0, current_size := 0 }⟩

/-- `~CustomVector()`: the statement `delete[] data_arr`; `none` is undefined behaviour. -/
def dtor {T : Type} (s : St T) : Option (Heap T) :=
  s.heap.delete_array s.self.data_arr

/-- `begin()`, `begin() const`, `cbegin()`: the pointer `data_arr`. -/
def begin_ (v : CustomVector) : Ref := ⟨v.data_arr, 0⟩

/-- `end()`, `end() const`, `cend()`: the pointer `data_arr + current_size`. -/
def end_ (v : CustomVector) : Ref := ⟨v.data_arr, v.current_size⟩

/-! ## Derived programs and predicates -/

/-- The caller's expression `v[index]` used as a value: the checked `operator[]`, then a read
through the returned reference. -/
def get_index {T : Type} (s : St T) (index : Nat) : Result (St T) T :=
  (operator_index s index).bind fun r s1 =>
    match s1.heap.load r.addr r.index with
    | none => .undefined
    | some x => .ok x s1

/-- The caller's statement `v[index] = x`: the checked `operator[]`, then a write through the
returned reference. -/
def assign_index {T : Type} (s : St T) (index : Nat) (x : T) : Result (St T) Unit :=
  (operator_index s index).bind fun r s1 =>
    match s1.heap.store r.addr r.index x with
    | none => .undefined
    | some h => .ok () { s1 with heap := h }

/-- The caller's loop `for (x : vs) v.push_back(x);` (test.cpp, lines 35-37), where `x` is a
variable or a temporary of the caller. -/
def push_all {T : Type} [Inhabited T] (s : St T) : List T → Result (St T) Unit
  | [] => .ok () s
  | x :: xs => (push_back s (.value x)).bind fun _ s1 => push_all s1 xs

end CustomVector

/-- The buffer of the object is a live array of exactly `current_capacity` slots. -/
def owns_buffer {T : Type} (s : St T) : Prop :=
  (s.heap.block s.self.data_arr).map List.length = some s.self.current_capacity

instance owns_buffer_decidable {T : Type} (s : St T) : Decidable (owns_buffer s) :=
  inferInstanceAs
    (Decidable ((s.heap.block s.self.data_arr).map List.length = some s.self.current_capacity))

/-- The representation invariant of an object: the capacity is a `size_t`, the object holds no
more elements than its capacity, and it either owns a live array of `current_capacity` slots or
owns nothing (`nullptr` and capacity 0: the moved-from state). -/
def wf {T : Type} (s : St T) : Prop :=
  s.self.current_capacity < 2 ^ 64 ∧ s.self.current_size ≤ s.self.current_capacity ∧
    (owns_buffer s ∨ (s.self.data_arr = 0 ∧ s.self.current_capacity = 0))

instance wf_decidable {T : Type} (s : St T) : Decidable (wf s) :=
  inferInstanceAs
    (Decidable (s.self.current_capacity < 2 ^ 64 ∧ s.self.current_size ≤ s.self.current_capacity ∧
      (owns_buffer s ∨ (s.self.data_arr = 0 ∧ s.self.current_capacity = 0))))

/-- The growth rule as the specification words it: `ceil(old_capacity * 1.5)`. -/
def ceil_growth (c : Nat) : Nat := (3 * c + 1) / 2

/-- A free store with memory to give and nothing allocated yet. -/
def empty_heap : Heap Int := ⟨[], false⟩

/-- A container of `int` that is full: its array holds exactly `vs` and is the only array of
the free store. -/
def full_of (vs : List Int) : St Int := ⟨⟨[some vs], false⟩, ⟨1, vs.length, vs.length⟩⟩

/-- The object `a` reads the same in the free store `h1` as in `h`: every checked read `a[i]`
that yields a value in `h` yields the same value in `h1`. -/
def reads_preserved {T : Type} (a : CustomVector) (h h1 : Heap T) : Prop :=
  ∀ i y, CustomVector.get_index ⟨h, a⟩ i = .ok y ⟨h, a⟩ →
    CustomVector.get_index ⟨h1, a⟩ i = .ok y ⟨h1, a⟩

/-- The live range `[0, size)` of a container as a list: the first `current_size` slots of its
array (empty for a container that owns nothing). -/
def live_elements {T : Type} (s : St T) : List T :=
  match s.heap.block s.self.data_arr with
  | some b => b.take s.self.current_size
  | none => []

/-! ## Callers: sequences of calls and iteration -/

/-- One call of a caller that only appends and removes; the value appended is a variable or a
temporary of the caller. -/
inductive Op (T : Type) where
  | push (x : T)
  | pop
  deriving DecidableEq, Repr

namespace CustomVector

/-- One call of `push_back` or `pop_back`. -/
def step {T : Type} [Inhabited T] (s : St T) : Op T → Result (St T) Unit
  | .push x => push_back s (.value x)
  | .pop => pop_back s

/-- A finite sequence of `push_back` and `pop_back` calls, in order. -/
def run_ops {T : Type} [Inhabited T] (s : St T) : List (Op T) → Result (St T) Unit
  | [] => .ok () s
  | o :: os => (step s o).bind fun _ s1 => run_ops s1 os

/-- The caller's loop `for (auto it = v.begin(); it != v.end(); ++it) *it = f(*it);` (test.cpp,
lines 83-85, with `f` the doubling), from the loop variable at `it`.  `fuel` bounds the number
of times the loop condition is evaluated; `none`: the bound was reached first. -/
def transform_loop {T : Type} (f : T → T) :
    (fuel : Nat) → Ref → St T → Option (Result (St T) Unit)
  | 0, _, _ => none
  | k + 1, it, s =>
    if it = end_ s.self then some (.ok () s)
    else
      match s.heap.load it.addr it.index with
      | none => some .undefined
      | some x =>
        match s.heap.store it.addr it.index (f x) with
        | none => some .undefined
        | some h => transform_loop f k ⟨it.addr, it.index + 1⟩ { s with heap := h }

/-- The caller's read-only traversal `for (it = v.begin(); it != v.end(); ++it) use(*it);`
(test.cpp, lines 11-13 and 91), from the loop variable at `it`: the values visited so far are
`acc`, and the result is the list of all values visited, in order.  `fuel` as in
`transform_loop`. -/
def visit_loop {T : Type} :
    (fuel : Nat) → Ref → St T → List T → Option (Result (St T) (List T))
  | 0, _, _, _ => none
  | k + 1, it, s, acc =>
    if it = end_ s.self then some (.ok acc s)
    else
      match s.heap.load it.addr it.index with
      | none => some .undefined
      | some x => visit_loop k ⟨it.addr, it.index + 1⟩ s (acc ++ [x])

/-- What `push_back` does to the data members `(current_capacity, current_size)` alone, leaving
the array aside: `if (current_size == current_capacity) current_capacity *= GROWTH_FACTOR;` and
`++current_size`.  `none`: the new capacity does not fit `size_t`. -/
def push_back_counters (c : Nat × Nat) : Option (Nat × Nat) :=
  match (if c.2 = c.1 then grow_capacity c.1 else some c.1) with
  | none => none
  | some cap => some (cap, (c.2 + 1) % 2 ^ 64)

/-- What `pop_back` does to the data members `(current_capacity, current_size)`. -/
def pop_back_counters (c : Nat × Nat) : Nat × Nat :=
  if c.2 > 0 then (c.1, c.2 - 1) else c

/-- The data members `(current_capacity, current_size)` along a sequence of calls. -/
def run_counters {T : Type} (c : Nat × Nat) : List (Op T) → Option (Nat × Nat)
  | [] => some c
  | .push _ :: os =>
    match push_back_counters c with
    | none => none
    | some c1 => run_counters c1 os
  | .pop :: os => run_counters (pop_back_counters c) os

end CustomVector

/-! ## Lemmas: what each primitive of the free store does -/

theorem Heap.block_of_length_le {T : Type} (h : Heap T) (p : Nat) (hp : h.blocks.length < p) :
    h.block p = none := by
  cases p with
  | zero => rfl
  | succ a =>
    have : h.blocks[a]? = none := List.getElem?_eq_none (by omega)
    simp [Heap.block, this]

theorem Heap.block_some_lt {T : Type} {h : Heap T} {p : Nat} {b : List T}
    (hb : h.block p = some b) : 0 < p ∧ p ≤ h.blocks.length := by
  rcases Nat.lt_or_ge h.blocks.length p with hlt | hge
  · rw [Heap.block_of_length_le h p hlt] at hb; cases hb
  · cases p with
    | zero => cases hb
    | succ a => exact ⟨Nat.succ_pos a, hge⟩

theorem Heap.block_eq_some_iff {T : Type} (h : Heap T) (a : Nat) (b : List T) :
    h.block (a + 1) = some b ↔ h.blocks[a]? = some (some b) := by
  simp only [Heap.block]
  split <;> simp_all


/-- What `new T[n]` does to the free store, when the allocator has memory. -/
theorem Heap.new_array_spec {T : Type} [Inhabited T] (h : Heap T) (n : Nat)
    (hx : h.exhausted = false) :
    ∃ h1, h.new_array n = some (h.blocks.length + 1, h1) ∧
      h1.block (h.blocks.length + 1) = some (List.replicate n default) ∧
      (∀ q, q ≠ h.blocks.length + 1 → h1.block q = h.block q) ∧
      h1.exhausted = false ∧ h1.blocks.length = h.blocks.length + 1 := by
  refine ⟨{ h with blocks := h.blocks ++ [some (List.replicate n default)] }, ?_, ?_, ?_, hx, ?_⟩
  · simp [Heap.new_array, hx]
  · rw [Heap.block_eq_some_iff]
    simp
  · intro q hq
    cases q with
    | zero => rfl
    | succ a =>
      have ha : a ≠ h.blocks.length := by omega
      simp only [Heap.block]
      rcases Nat.lt_or_ge a h.blocks.length with hlt | hge
      · rw [List.getElem?_append_left hlt]
      · have h1 : (h.blocks ++ [some (List.replicate n default)])[a]? = none :=
          List.getElem?_eq_none (by simp; omega)
        have h2 : h.blocks[a]? = none := List.getElem?_eq_none hge
        rw [h1, h2]
  · simp

/-- What `p[i] = x` does to the free store, when `p` designates a live array with more than `i`
slots. -/
theorem Heap.store_spec {T : Type} (h : Heap T) (p i : Nat) (x : T) (b : List T)
    (hb : h.block p = some b) (hi : i < b.length) :
    ∃ h1, h.store p i x = some h1 ∧ h1.block p = some (b.set i x) ∧
      (∀ q, q ≠ p → h1.block q = h.block q) ∧
      h1.exhausted = h.exhausted ∧ h1.blocks.length = h.blocks.length := by
  cases p with
  | zero => cases hb
  | succ a =>
    have hb1 := (Heap.block_eq_some_iff h a b).1 hb
    have halt : a < h.blocks.length := by
      have := Heap.block_some_lt hb
      omega
    refine ⟨{ h with blocks := h.blocks.set a (some (b.set i x)) }, ?_, ?_, ?_, rfl, ?_⟩
    · simp [Heap.store, hb1, hi]
    · rw [Heap.block_eq_some_iff]
      simp [halt]
    · intro q hq
      cases q with
      | zero => rfl
      | succ c =>
        have hc : a ≠ c := by omega
        simp only [Heap.block]
        rw [List.getElem?_set_ne hc]
    · simp

/-- A write succeeds only inside a live array. -/
theorem Heap.store_some_inv {T : Type} {h h1 : Heap T} {p i : Nat} {x : T}
    (hs : h.store p i x = some h1) : ∃ b, h.block p = some b ∧ i < b.length := by
  cases p with
  | zero => cases hs
  | succ a =>
    simp only [Heap.store] at hs
    split at hs
    · rename_i b hb
      refine ⟨b, (Heap.block_eq_some_iff h a b).2 hb, ?_⟩
      by_contra hcon
      simp [hcon] at hs
    · cases hs

/-- What `delete[] p` does to the free store, when `p` designates a live array. -/
theorem Heap.delete_array_spec {T : Type} (h : Heap T) (p : Nat) (b : List T)
    (hb : h.block p = some b) :
    ∃ h1, h.delete_array p = some h1 ∧ h1.block p = none ∧
      (∀ q, q ≠ p → h1.block q = h.block q) ∧
      h1.exhausted = h.exhausted ∧ h1.blocks.length = h.blocks.length := by
  cases p with
  | zero => cases hb
  | succ a =>
    have hb1 := (Heap.block_eq_some_iff h a b).1 hb
    have halt : a < h.blocks.length := by
      have := Heap.block_some_lt hb
      omega
    refine ⟨{ h with blocks := h.blocks.set a none }, ?_, ?_, ?_, rfl, ?_⟩
    · simp [Heap.delete_array, hb1]
    · simp [Heap.block, halt]
    · intro q hq
      cases q with
      | zero => rfl
      | succ c =>
        have hc : a ≠ c := by omega
        simp only [Heap.block]
        rw [List.getElem?_set_ne hc]
    · simp

theorem Heap.load_eq {T : Type} (h : Heap T) (p i : Nat) (b : List T) (hb : h.block p = some b) :
    h.load p i = b[i]? := by
  simp [Heap.load, hb]

theorem round_to_double_of_lt (n : Nat) (hn : n < 2 ^ 53) : round_to_double n = n := by
  unfold round_to_double
  rw [if_pos hn]

/-- In the range where the product with `1.5` is exact, the capacity statement of `resize`
computes `c + c / 2`. -/
theorem grow_capacity_exact (c : Nat) (hc : 3 * c < 2 ^ 53) :
    grow_capacity c = some (c + c / 2) := by
  have h1 : round_to_double c = c := round_to_double_of_lt c (by omega)
  have h2 : round_to_double (3 * c) = 3 * c := round_to_double_of_lt (3 * c) hc
  have h3 : 3 * c / 2 = c + c / 2 := by omega
  have h4 : c + c / 2 < 2 ^ 64 := by omega
  unfold grow_capacity
  simp only [h1, h2, h3]
  rw [if_pos h4]

/-- The copy loop of `resize`, between two distinct live arrays that are long enough. -/
theorem CustomVector.copy_loop_spec {T : Type} (dst src : Nat) (hne : dst ≠ src) :
    ∀ (count i : Nat) (h : Heap T) (bs bd : List T),
      h.block src = some bs → h.block dst = some bd →
      i + count ≤ bs.length → i + count ≤ bd.length →
      ∃ h1 bd1, CustomVector.copy_loop dst src count i h = some h1 ∧
        h1.block dst = some bd1 ∧ bd1.length = bd.length ∧
        (∀ j, i ≤ j → j < i + count → bd1[j]? = bs[j]?) ∧
        (∀ j, j < i → bd1[j]? = bd[j]?) ∧
        (∀ q, q ≠ dst → h1.block q = h.block q) ∧
        h1.exhausted = h.exhausted ∧ h1.blocks.length = h.blocks.length := by
  intro count
  induction count with
  | zero =>
    intro i h bs bd hs hd _ _
    exact ⟨h, bd, rfl, hd, rfl, fun j h1 h2 => by omega, fun _ _ => rfl, fun _ _ => rfl, rfl, rfl⟩
  | succ k ih =>
    intro i h bs bd hs hd hls hld
    have hi : i < bs.length := by omega
    have hload : h.load src i = some bs[i] := by
      rw [Heap.load_eq h src i bs hs]
      exact List.getElem?_eq_getElem hi
    obtain ⟨h1, hst, hb1, hoth, hex, hlen⟩ :=
      Heap.store_spec h dst i bs[i] bd hd (by omega)
    have hs1 : h1.block src = some bs := by rw [hoth src (Ne.symm hne)]; exact hs
    obtain ⟨h2, bd2, hrun, hb2, hl2, hnew, hold, hoth2, hex2, hlen2⟩ :=
      ih (i + 1) h1 bs (bd.set i bs[i]) hs1 hb1 (by omega) (by simp; omega)
    refine ⟨h2, bd2, ?_, hb2, by simpa using hl2, ?_, ?_, ?_, by rw [hex2, hex],
      by rw [hlen2, hlen]⟩
    · simp [CustomVector.copy_loop, hload, hst, hrun]
    · intro j hj1 hj2
      rcases Nat.eq_or_lt_of_le hj1 with heq | hlt
      · subst heq
        rw [hold i (by omega)]
        simp [List.getElem?_set, hi, (show i < bd.length by omega)]
      · exact hnew j (by omega) (by omega)
    · intro j hj
      rw [hold j (by omega)]
      rw [List.getElem?_set_ne (by omega)]
    · intro q hq
      rw [hoth2 q hq, hoth q hq]

theorem owns_buffer_iff {T : Type} (s : St T) :
    owns_buffer s ↔ ∃ b, s.heap.block s.self.data_arr = some b ∧
      b.length = s.self.current_capacity := by
  unfold owns_buffer
  cases s.heap.block s.self.data_arr <;> simp

/-- The growth step on a well-formed object, when the allocator has memory and the new capacity
`c` can hold the live elements: it returns normally, the object now points to a fresh array of
`c` slots whose first `current_size` slots hold the old elements, the old array is released and
no other array is touched. -/
theorem CustomVector.resize_spec {T : Type} [Inhabited T] (s : St T)
    (hx : s.heap.exhausted = false) (hwf : wf s) (c : Nat)
    (hg : grow_capacity s.self.current_capacity = some c) (hc : s.self.current_size ≤ c) :
    ∃ h1 b1, CustomVector.resize s =
        .ok () ⟨h1, ⟨s.heap.blocks.length + 1, c, s.self.current_size⟩⟩ ∧
      h1.block (s.heap.blocks.length + 1) = some b1 ∧ b1.length = c ∧
      (∀ j, j < s.self.current_size → b1[j]? = s.heap.load s.self.data_arr j) ∧
      (∀ q, q ≠ s.heap.blocks.length + 1 → q ≠ s.self.data_arr → h1.block q = s.heap.block q) ∧
      h1.block s.self.data_arr = none ∧
      h1.exhausted = false ∧ h1.blocks.length = s.heap.blocks.length + 1 := by
  obtain ⟨h1, hnew, hb1, hoth1, hex1, hlen1⟩ := Heap.new_array_spec s.heap c hx
  rcases hwf with ⟨_, hsz, hown | ⟨hnull, hcap⟩⟩
  · obtain ⟨b, hb, hbl⟩ := (owns_buffer_iff s).1 hown
    have hlt := Heap.block_some_lt hb
    have hne : s.heap.blocks.length + 1 ≠ s.self.data_arr := by omega
    have hsrc : h1.block s.self.data_arr = some b := by
      rw [hoth1 _ (Ne.symm hne)]; exact hb
    obtain ⟨h2, b2, hcopy, hb2, hl2, hnew2, _, hoth2, hex2, hlen2⟩ :=
      CustomVector.copy_loop_spec (s.heap.blocks.length + 1) s.self.data_arr hne
        s.self.current_size 0 h1 b (List.replicate c default) hsrc hb1
        (by omega) (by simp; omega)
    have hsrc2 : h2.block s.self.data_arr = some b := by
      rw [hoth2 _ (Ne.symm hne)]; exact hsrc
    obtain ⟨h3, hdel, hb3, hoth3, hex3, hlen3⟩ :=
      Heap.delete_array_spec h2 s.self.data_arr b hsrc2
    refine ⟨h3, b2, ?_, ?_, by simpa using hl2, ?_, ?_, hb3, by rw [hex3, hex2, hex1],
      by rw [hlen3, hlen2, hlen1]⟩
    · simp only [CustomVector.resize, hg, hnew, hcopy, hdel]
    · rw [hoth3 _ hne]; exact hb2
    · intro j hj
      rw [hnew2 j (Nat.zero_le j) (by omega), Heap.load_eq s.heap _ j b hb]
    · intro q hq1 hq2
      rw [hoth3 q hq2, hoth2 q hq1, hoth1 q hq1]
  · have hsize : s.self.current_size = 0 := by omega
    refine ⟨h1, List.replicate c default, ?_, hb1, by simp, ?_, ?_, ?_, hex1, hlen1⟩
    · simp only [CustomVector.resize, hg, hnew, hnull, hsize, CustomVector.copy_loop,
        Heap.delete_array]
    · intro j hj
      omega
    · intro q hq1 _
      exact hoth1 q hq1
    · rw [hnull]
      rfl

/-- The copy loop of the copy constructor and of copy assignment, from the live array of `other`
into a distinct live array: `other_instance[i]` never throws because `i` stays below
`other.current_size`. -/
theorem CustomVector.copy_from_spec {T : Type} (other : CustomVector) (dst : Nat)
    (hne : dst ≠ other.data_arr) :
    ∀ (count i : Nat) (h : Heap T) (bs bd : List T),
      h.block other.data_arr = some bs → h.block dst = some bd →
      i + count ≤ other.current_size → i + count ≤ bs.length → i + count ≤ bd.length →
      ∃ h1 bd1, CustomVector.copy_from other dst count i h = .ok () h1 ∧
        h1.block dst = some bd1 ∧ bd1.length = bd.length ∧
        (∀ j, i ≤ j → j < i + count → bd1[j]? = bs[j]?) ∧
        (∀ j, j < i → bd1[j]? = bd[j]?) ∧
        (∀ q, q ≠ dst → h1.block q = h.block q) ∧
        h1.exhausted = h.exhausted ∧ h1.blocks.length = h.blocks.length := by
  intro count
  induction count with
  | zero =>
    intro i h bs bd hs hd _ _ _
    exact ⟨h, bd, rfl, hd, rfl, fun j h1 h2 => by omega, fun _ _ => rfl, fun _ _ => rfl, rfl, rfl⟩
  | succ k ih =>
    intro i h bs bd hs hd hsz hls hld
    have hi : i < bs.length := by omega
    have hidx : ¬ (i ≥ other.current_size) := by omega
    have hload : h.load other.data_arr i = some bs[i] := by
      rw [Heap.load_eq h other.data_arr i bs hs]
      exact List.getElem?_eq_getElem hi
    obtain ⟨h1, hst, hb1, hoth, hex, hlen⟩ :=
      Heap.store_spec h dst i bs[i] bd hd (by omega)
    have hs1 : h1.block other.data_arr = some bs := by rw [hoth _ (Ne.symm hne)]; exact hs
    obtain ⟨h2, bd2, hrun, hb2, hl2, hnew, hold, hoth2, hex2, hlen2⟩ :=
      ih (i + 1) h1 bs (bd.set i bs[i]) hs1 hb1 (by omega) (by omega) (by simp; omega)
    refine ⟨h2, bd2, ?_, hb2, by simpa using hl2, ?_, ?_, ?_, by rw [hex2, hex],
      by rw [hlen2, hlen]⟩
    · simp only [CustomVector.copy_from, CustomVector.operator_index_const, if_neg hidx, hload,
        hst, hrun]
    · intro j hj1 hj2
      rcases Nat.eq_or_lt_of_le hj1 with heq | hlt
      · subst heq
        rw [hold i (by omega)]
        simp [List.getElem?_set, hi, (show i < bd.length by omega)]
      · exact hnew j (by omega) (by omega)
    · intro j hj
      rw [hold j (by omega)]
      rw [List.getElem?_set_ne (by omega)]
    · intro q hq
      rw [hoth2 q hq, hoth q hq]

/-- The element loop of the copy operations on a well-formed source, into a fresh array `dst` of
`current_capacity` default elements. -/
theorem CustomVector.copy_from_wf {T : Type} [Inhabited T] (other : CustomVector) (dst : Nat)
    (h : Heap T) (hwf : wf ⟨h, other⟩)
    (hd : h.block dst = some (List.replicate other.current_capacity default))
    (hne : dst ≠ other.data_arr) :
    ∃ h1 b1, CustomVector.copy_from other dst other.current_size 0 h = .ok () h1 ∧
      h1.block dst = some b1 ∧ b1.length = other.current_capacity ∧
      (∀ j, j < other.current_size → b1[j]? = h.load other.data_arr j) ∧
      (∀ q, q ≠ dst → h1.block q = h.block q) ∧
      h1.exhausted = h.exhausted ∧ h1.blocks.length = h.blocks.length := by
  rcases hwf with ⟨_, hsz, hown | ⟨hnull, hcap⟩⟩
  · obtain ⟨b, hb, hbl⟩ := (owns_buffer_iff _).1 hown
    simp only at hb hbl hsz
    obtain ⟨h2, b2, hcopy, hb2, hl2, hnew2, _, hoth2, hex2, hlen2⟩ :=
      CustomVector.copy_from_spec other dst hne other.current_size 0 h b
        (List.replicate other.current_capacity default) hb hd
        (by omega) (by omega) (by simp; omega)
    refine ⟨h2, b2, hcopy, hb2, by simpa using hl2, ?_, hoth2, hex2, hlen2⟩
    intro j hj
    rw [hnew2 j (Nat.zero_le j) (by omega), Heap.load_eq h _ j b hb]
  · simp only at hsz hcap
    have hsize : other.current_size = 0 := by omega
    refine ⟨h, List.replicate other.current_capacity default, ?_, hd, by simp, ?_,
      fun _ _ => rfl, rfl, rfl⟩
    · rw [hsize]
      rfl
    · intro j hj
      omega

/-- A full container of capacity 0 or 1 cannot take another element, whatever the argument is
bound to: the growth step leaves the capacity where it was, so the write
`data_arr[current_size] = element` falls outside the fresh array. -/
theorem CustomVector.push_back_full_small_arg {T : Type} [Inhabited T] (s : St T) (a : Arg T)
    (hx : s.heap.exhausted = false) (hwf : wf s)
    (hfull : s.self.current_size = s.self.current_capacity)
    (hsmall : s.self.current_capacity ≤ 1) :
    CustomVector.push_back s a = .undefined := by
  have hg : grow_capacity s.self.current_capacity = some s.self.current_capacity := by
    rw [grow_capacity_exact _ (by omega)]
    congr 1
    omega
  obtain ⟨h1, b1, hres, hb1, hl1, _⟩ :=
    CustomVector.resize_spec s hx hwf s.self.current_capacity hg (by omega)
  unfold CustomVector.push_back
  rw [if_pos hfull, hres]
  simp only [Result.bind]
  cases hrd : a.read h1 with
  | none => rfl
  | some x =>
    simp only
    cases hst : h1.store (s.heap.blocks.length + 1) s.self.current_size x with
    | none => rfl
    | some h2 =>
      obtain ⟨b, hb, hi⟩ := Heap.store_some_inv hst
      rw [hb1] at hb
      cases hb
      omega

/-- A full container of capacity 0 or 1 cannot take another element. -/
theorem CustomVector.push_back_full_small {T : Type} [Inhabited T] (s : St T) (x : T)
    (hx : s.heap.exhausted = false) (hwf : wf s)
    (hfull : s.self.current_size = s.self.current_capacity)
    (hsmall : s.self.current_capacity ≤ 1) :
    CustomVector.push_back s (.value x) = .undefined :=
  CustomVector.push_back_full_small_arg s (.value x) hx hwf hfull hsmall

/-- An append into spare capacity: nothing is allocated, the element lands in slot
`current_size` of the object's own array and the size grows by one. -/
theorem CustomVector.push_back_room {T : Type} [Inhabited T] (s : St T) (x : T) (hwf : wf s)
    (hroom : s.self.current_size < s.self.current_capacity) :
    ∃ h1 b, s.heap.block s.self.data_arr = some b ∧
      CustomVector.push_back s (.value x) =
        .ok () ⟨h1, ⟨s.self.data_arr, s.self.current_capacity, s.self.current_size + 1⟩⟩ ∧
      h1.block s.self.data_arr = some (b.set s.self.current_size x) ∧
      b.length = s.self.current_capacity ∧
      (∀ q, q ≠ s.self.data_arr → h1.block q = s.heap.block q) ∧
      h1.exhausted = s.heap.exhausted ∧ h1.blocks.length = s.heap.blocks.length := by
  rcases hwf with ⟨hcap, hsz, hown | ⟨_, hzero⟩⟩
  · obtain ⟨b, hb, hbl⟩ := (owns_buffer_iff s).1 hown
    obtain ⟨h1, hst, hb1, hoth, hex, hlen⟩ :=
      Heap.store_spec s.heap s.self.data_arr s.self.current_size x b hb (by omega)
    have hne : ¬ s.self.current_size = s.self.current_capacity := by omega
    have hmod : (s.self.current_size + 1) % 2 ^ 64 = s.self.current_size + 1 :=
      Nat.mod_eq_of_lt (by omega)
    refine ⟨h1, b, hb, ?_, hb1, hbl, hoth, hex, hlen⟩
    unfold CustomVector.push_back
    rw [if_neg hne]
    simp only [Result.bind, Arg.read, hst, hmod]
  · omega

/-- The checked read `v[i]` of a live element returns it and changes nothing. -/
theorem CustomVector.get_index_ok {T : Type} (s : St T) (i : Nat) (x : T)
    (hi : i < s.self.current_size) (hl : s.heap.load s.self.data_arr i = some x) :
    CustomVector.get_index s i = .ok x s := by
  have hidx : ¬ (i ≥ s.self.current_size) := by omega
  simp only [CustomVector.get_index, CustomVector.operator_index, if_neg hidx, Result.bind, hl]

/-- Every live element of a well-formed object can be read. -/
theorem wf_load {T : Type} (s : St T) (hwf : wf s) (i : Nat) (hi : i < s.self.current_size) :
    ∃ x, s.heap.load s.self.data_arr i = some x := by
  rcases hwf with ⟨_, hsz, hown | ⟨_, hzero⟩⟩
  · obtain ⟨b, hb, hbl⟩ := (owns_buffer_iff s).1 hown
    have hib : i < b.length := by omega
    exact ⟨b[i], by rw [Heap.load_eq s.heap _ i b hb]; exact List.getElem?_eq_getElem hib⟩
  · omega

/-- The buffer pointer of a well-formed object is `nullptr` or an address handed out before. -/
theorem wf_data_arr_le {T : Type} (s : St T) (hwf : wf s) :
    s.self.data_arr ≤ s.heap.blocks.length := by
  rcases hwf with ⟨_, _, hown | ⟨hnull, _⟩⟩
  · obtain ⟨b, hb, _⟩ := (owns_buffer_iff s).1 hown
    exact (Heap.block_some_lt hb).2
  · omega

/-- Well-formedness only looks at the object and at its own array. -/
theorem wf_of_block_eq {T : Type} (h h1 : Heap T) (v : CustomVector)
    (hb : h1.block v.data_arr = h.block v.data_arr) (hwf : wf ⟨h, v⟩) : wf ⟨h1, v⟩ := by
  unfold wf owns_buffer at *
  simp only at *
  rw [hb]
  exact hwf

/-- Releasing the buffer of a well-formed object (`delete[] data_arr`) is defined, also for the
`nullptr` of a moved-from object, and touches no other array. -/
theorem wf_delete_array {T : Type} (s : St T) (hwf : wf s) :
    ∃ h1, s.heap.delete_array s.self.data_arr = some h1 ∧
      h1.block s.self.data_arr = none ∧
      (∀ q, q ≠ s.self.data_arr → h1.block q = s.heap.block q) ∧
      h1.exhausted = s.heap.exhausted ∧ h1.blocks.length = s.heap.blocks.length := by
  rcases hwf with ⟨_, _, hown | ⟨hnull, _⟩⟩
  · obtain ⟨b, hb, _⟩ := (owns_buffer_iff s).1 hown
    exact Heap.delete_array_spec s.heap s.self.data_arr b hb
  · rw [hnull]
    exact ⟨s.heap, rfl, rfl, fun _ _ => rfl, rfl, rfl⟩

/-- The copy constructor on a well-formed source, when the allocator has memory: it returns a
well-formed object with the source's size and capacity whose buffer is a fresh array holding the
source's live elements; no array that existed before is touched. -/
theorem CustomVector.ctor_copy_spec {T : Type} [Inhabited T] (h : Heap T) (src : CustomVector)
    (hx : h.exhausted = false) (hsrc : wf ⟨h, src⟩) :
    ∃ h1 b1, CustomVector.ctor_copy h src =
        .ok ⟨h.blocks.length + 1, src.current_capacity, src.current_size⟩ h1 ∧
      h1.block (h.blocks.length + 1) = some b1 ∧ b1.length = src.current_capacity ∧
      (∀ j, j < src.current_size → b1[j]? = h.load src.data_arr j) ∧
      (∀ q, q ≠ h.blocks.length + 1 → h1.block q = h.block q) ∧
      h1.exhausted = false ∧ h1.blocks.length = h.blocks.length + 1 := by
  obtain ⟨h1, hnew, hb1, hoth1, hex1, hlen1⟩ := Heap.new_array_spec h src.current_capacity hx
  have hle : src.data_arr ≤ h.blocks.length := wf_data_arr_le ⟨h, src⟩ hsrc
  have hne : h.blocks.length + 1 ≠ src.data_arr := by omega
  have hkeep : h1.block src.data_arr = h.block src.data_arr := hoth1 _ (Ne.symm hne)
  obtain ⟨h2, b2, hcopy, hb2, hl2, helems, hoth2, hex2, hlen2⟩ :=
    CustomVector.copy_from_wf src (h.blocks.length + 1) h1 (wf_of_block_eq h h1 src hkeep hsrc)
      hb1 hne
  refine ⟨h2, b2, ?_, hb2, hl2, ?_, ?_, by rw [hex2, hex1], by rw [hlen2, hlen1]⟩
  · simp only [CustomVector.ctor_copy, hnew, hcopy]
  · intro j hj
    rw [helems j hj]
    simp only [Heap.load, hkeep]
  · intro q hq
    rw [hoth2 q hq, hoth1 q hq]

/-- Copy assignment between two distinct well-formed objects that do not share a buffer, when
the allocator has memory: the target's old array is released, the target gets the source's size
and capacity and a fresh array holding the source's live elements; the source and its array are
as before. -/
theorem CustomVector.assign_copy_spec {T : Type} [Inhabited T] (h : Heap T)
    (tgt src : CustomVector) (hx : h.exhausted = false) (hsrc : wf ⟨h, src⟩)
    (htgt : wf ⟨h, tgt⟩) (hdist : tgt.data_arr = 0 ∨ tgt.data_arr ≠ src.data_arr) :
    ∃ h3 b1, CustomVector.assign_copy ⟨h, tgt, some src⟩ =
        .ok () ⟨h3, ⟨h.blocks.length + 1, src.current_capacity, src.current_size⟩, some src⟩ ∧
      h3.block (h.blocks.length + 1) = some b1 ∧ b1.length = src.current_capacity ∧
      (∀ j, j < src.current_size → b1[j]? = h.load src.data_arr j) ∧
      (∀ q, q ≠ h.blocks.length + 1 → q ≠ tgt.data_arr → h3.block q = h.block q) ∧
      h3.block src.data_arr = h.block src.data_arr ∧
      h3.exhausted = false ∧ h3.blocks.length = h.blocks.length + 1 := by
  obtain ⟨h1, hdel, _, hoth1, hex1, hlen1⟩ := wf_delete_array ⟨h, tgt⟩ htgt
  simp only at hdel hoth1 hex1 hlen1
  have hkeep1 : h1.block src.data_arr = h.block src.data_arr := by
    by_cases heq : src.data_arr = tgt.data_arr
    · rcases hdist with hz | hne
      · rw [heq, hz]
        rfl
      · exact absurd heq.symm hne
    · exact hoth1 _ heq
  obtain ⟨h2, hnew, hb2, hoth2, hex2, hlen2⟩ :=
    Heap.new_array_spec h1 src.current_capacity (by rw [hex1]; exact hx)
  rw [hlen1] at hnew hb2 hoth2 hlen2
  have hle : src.data_arr ≤ h.blocks.length := wf_data_arr_le ⟨h, src⟩ hsrc
  have hne : h.blocks.length + 1 ≠ src.data_arr := by omega
  have hkeep2 : h2.block src.data_arr = h.block src.data_arr := by
    rw [hoth2 _ (Ne.symm hne)]
    exact hkeep1
  obtain ⟨h3, b3, hcopy, hb3, hl3, helems, hoth3, hex3, hlen3⟩ :=
    CustomVector.copy_from_wf src (h.blocks.length + 1) h2 (wf_of_block_eq h h2 src hkeep2 hsrc)
      hb2 hne
  refine ⟨h3, b3, ?_, hb3, hl3, ?_, ?_, ?_, by rw [hex3, hex2], by rw [hlen3, hlen2]⟩
  · simp only [CustomVector.assign_copy, hdel, hnew, hcopy]
  · intro j hj
    rw [helems j hj]
    simp only [Heap.load, hkeep2]
  · intro q hq1 hq2
    rw [hoth3 q hq1, hoth2 q hq1, hoth1 q hq2]
  · rw [hoth3 _ (Ne.symm hne)]
    exact hkeep2

/-- An append that triggers growth, on a full well-formed container of capacity at least 2 (in
the exact range, allocator with memory): the container moves to a fresh array of
`c + c / 2` slots that holds the old elements followed by the new one. -/
theorem CustomVector.push_back_grow {T : Type} [Inhabited T] (s : St T) (x : T)
    (hx : s.heap.exhausted = false) (hwf : wf s)
    (hfull : s.self.current_size = s.self.current_capacity)
    (hmin : 2 ≤ s.self.current_capacity) (hrange : 3 * s.self.current_capacity < 2 ^ 53) :
    ∃ h2 b2, CustomVector.push_back s (.value x) =
        .ok () ⟨h2, ⟨s.heap.blocks.length + 1,
          s.self.current_capacity + s.self.current_capacity / 2, s.self.current_size + 1⟩⟩ ∧
      h2.block (s.heap.blocks.length + 1) = some b2 ∧
      b2.length = s.self.current_capacity + s.self.current_capacity / 2 ∧
      (∀ j, j < s.self.current_size → b2[j]? = s.heap.load s.self.data_arr j) ∧
      b2[s.self.current_size]? = some x ∧
      (∀ q, q ≠ s.heap.blocks.length + 1 → q ≠ s.self.data_arr → h2.block q = s.heap.block q) ∧
      h2.exhausted = false ∧ h2.blocks.length = s.heap.blocks.length + 1 := by
  obtain ⟨h1, b1, hres, hb1, hl1, helems, hoth1, _, hex1, hlen1⟩ :=
    CustomVector.resize_spec s hx hwf _ (grow_capacity_exact _ hrange) (by omega)
  have hlt : s.self.current_size < b1.length := by omega
  obtain ⟨h2, hst, hb2, hoth2, hex2, hlen2⟩ :=
    Heap.store_spec h1 (s.heap.blocks.length + 1) s.self.current_size x b1 hb1 hlt
  have hmod : (s.self.current_size + 1) % 2 ^ 64 = s.self.current_size + 1 :=
    Nat.mod_eq_of_lt (by omega)
  refine ⟨h2, b1.set s.self.current_size x, ?_, hb2, by simpa using hl1, ?_, ?_, ?_,
    by rw [hex2, hex1], by rw [hlen2, hlen1]⟩
  · unfold CustomVector.push_back
    rw [if_pos hfull, hres]
    simp only [Result.bind, Arg.read, hst, hmod]
  · intro j hj
    rw [List.getElem?_set_ne (by omega)]
    exact helems j hj
  · simp [List.getElem?_set, hlt]
  · intro q hq1 hq2
    rw [hoth2 q hq1, hoth1 q hq1 hq2]

/-- An append on a well-formed container that has spare capacity or a capacity of at least 2 (in
the exact range, allocator with memory): it returns a well-formed container one element longer,
whose last element is the new one and whose earlier elements are the old ones; no array of
another owner is touched and the capacity does not shrink. -/
theorem CustomVector.push_back_ok {T : Type} [Inhabited T] (s : St T) (x : T)
    (hx : s.heap.exhausted = false) (hwf : wf s)
    (hroom : s.self.current_size < s.self.current_capacity ∨ 2 ≤ s.self.current_capacity)
    (hrange : 3 * s.self.current_capacity < 2 ^ 53) :
    ∃ s1, CustomVector.push_back s (.value x) = .ok () s1 ∧ wf s1 ∧
      s1.self.current_size = s.self.current_size + 1 ∧
      s.self.current_capacity ≤ s1.self.current_capacity ∧
      s1.heap.load s1.self.data_arr s.self.current_size = some x ∧
      (∀ j, j < s.self.current_size →
        s1.heap.load s1.self.data_arr j = s.heap.load s.self.data_arr j) ∧
      (∀ q, q ≠ s.self.data_arr → q ≤ s.heap.blocks.length →
        s1.heap.block q = s.heap.block q) ∧
      s1.heap.exhausted = false ∧ s.heap.blocks.length ≤ s1.heap.blocks.length := by
  have hcap : s.self.current_capacity < 2 ^ 64 := hwf.1
  have hsz : s.self.current_size ≤ s.self.current_capacity := hwf.2.1
  by_cases hlt : s.self.current_size < s.self.current_capacity
  · obtain ⟨h1, b, hb, hrun, hb1, hbl, hoth, hex, hlen⟩ :=
      CustomVector.push_back_room s x hwf hlt
    have hib : s.self.current_size < b.length := by omega
    refine ⟨_, hrun, ⟨hcap, by simp only; omega, Or.inl ?_⟩, rfl, Nat.le_refl _, ?_, ?_, ?_,
      by rw [hex, hx], by rw [hlen]⟩
    · simp [owns_buffer, hb1, hbl]
    · simp only [Heap.load, hb1]
      simp [List.getElem?_set, hib]
    · intro j hj
      simp only [Heap.load, hb1, hb]
      rw [List.getElem?_set_ne (by omega)]
    · intro q hq _
      exact hoth q hq
  · have hfull : s.self.current_size = s.self.current_capacity := by omega
    have hmin : 2 ≤ s.self.current_capacity := by omega
    obtain ⟨h2, b2, hrun, hb2, hl2, helems, hlast, hoth, hex, hlen⟩ :=
      CustomVector.push_back_grow s x hx hwf hfull hmin hrange
    refine ⟨_, hrun, ⟨by simp only; omega, by simp only; omega, Or.inl ?_⟩, rfl,
      by simp only; omega, ?_, ?_, ?_, hex, by rw [hlen]; omega⟩
    · simp [owns_buffer, hb2, hl2]
    · simp only [Heap.load, hb2]
      exact hlast
    · intro j hj
      simp only [Heap.load, hb2]
      rw [helems j hj]
      rfl
    · intro q hq hle
      exact hoth q (by omega) hq

/-- An object whose array is untouched reads as before. -/
theorem reads_preserved_of_block_eq {T : Type} (a : CustomVector) (h h1 : Heap T)
    (hb : h1.block a.data_arr = h.block a.data_arr) : reads_preserved a h h1 := by
  intro i y hget
  by_cases hi : i ≥ a.current_size
  · simp only [CustomVector.get_index, CustomVector.operator_index, if_pos hi, Result.bind]
      at hget
    cases hget
  · simp only [CustomVector.get_index, CustomVector.operator_index, if_neg hi, Result.bind,
      Heap.load] at hget ⊢
    rw [hb]
    cases hl : (match h.block a.data_arr with
      | some b => b[i]?
      | none => none) with
    | none => rw [hl] at hget; cases hget
    | some z =>
      rw [hl] at hget
      simp only at hget ⊢
      cases hget
      rfl

/-- The statement `pop_back()` returns normally and leaves the free store alone. -/
theorem CustomVector.pop_back_heap {T : Type} (s : St T) :
    ∃ s1, CustomVector.pop_back s = .ok () s1 ∧ s1.heap = s.heap := by
  by_cases h0 : s.self.current_size > 0
  · exact ⟨{ s with self := { s.self with current_size := s.self.current_size - 1 } },
      by simp only [CustomVector.pop_back, if_pos h0], rfl⟩
  · exact ⟨s, by simp only [CustomVector.pop_back, if_neg h0], rfl⟩

/-! ## The claims -/

/-- C1 (fails on the code): starting from a default-constructed `CustomVector`, the first
`push_back` stores its value (size 1, `v[0]` is the value), but every sequence of two or more
`push_back` calls runs into undefined behaviour at the second call: the growth step leaves the
capacity at 1 and the second element is written past the one-slot array. -/
theorem C1_default_push_back_twice_overflows {T : Type} [Inhabited T] (h : Heap T) (x y : T)
    (rest : List T) (hx : h.exhausted = false) :
    ∃ v h1, CustomVector.ctor_default h = .ok v h1 ∧
      (∃ s1, CustomVector.push_all ⟨h1, v⟩ [x] = .ok () s1 ∧ s1.self.size = 1 ∧
        CustomVector.get_index s1 0 = .ok x s1) ∧
      CustomVector.push_all ⟨h1, v⟩ (x :: y :: rest) = .undefined := by
  obtain ⟨h1, hnew, hb1, _, hex1, _⟩ := Heap.new_array_spec h 1 hx
  have hwf0 : wf (⟨h1, ⟨h.blocks.length + 1, 1, 0⟩⟩ : St T) := by
    refine ⟨by simp, by simp, Or.inl ?_⟩
    simp [owns_buffer, hb1]
  obtain ⟨h2, b, hb, hpush, hb2, hbl, _, hex2, _⟩ :=
    CustomVector.push_back_room ⟨h1, ⟨h.blocks.length + 1, 1, 0⟩⟩ x hwf0 (by simp)
  simp only at hb hpush hb2 hbl hex2
  rw [hb1] at hb
  cases hb
  have hwf1 : wf (⟨h2, ⟨h.blocks.length + 1, 1, 1⟩⟩ : St T) := by
    refine ⟨by simp, by simp, Or.inl ?_⟩
    simp [owns_buffer, hb2]
  have hover := CustomVector.push_back_full_small ⟨h2, ⟨h.blocks.length + 1, 1, 1⟩⟩ y
    (by rw [hex2, hex1]) hwf1 rfl (by simp)
  refine ⟨⟨h.blocks.length + 1, 1, 0⟩, h1, ?_, ⟨⟨h2, ⟨h.blocks.length + 1, 1, 1⟩⟩, ?_, rfl, ?_⟩, ?_⟩
  · simp [CustomVector.ctor_default, hnew]
  · simp [CustomVector.push_all, hpush, Result.bind]
  · simp [CustomVector.get_index, CustomVector.operator_index, Result.bind, Heap.load, hb2]
  · simp [CustomVector.push_all, hpush, hover, Result.bind]

/-- Witness of C1 on the run of test.cpp (lines 27, 35-37): `CustomVector<int> vec1;` followed by
`push_back` of 0, 10, 20, 30, 40. -/
theorem C1_default_push_back_twice_overflows_witness :
    empty_heap.exhausted = false ∧
      CustomVector.ctor_default empty_heap = .ok ⟨1, 1, 0⟩ ⟨[some [0]], false⟩ ∧
      CustomVector.push_all (⟨⟨[some [0]], false⟩, ⟨1, 1, 0⟩⟩ : St Int) [0, 10, 20, 30, 40] =
        .undefined := by
  obtain ⟨v, h1, hc, _, hu⟩ :=
    C1_default_push_back_twice_overflows empty_heap 0 10 [20, 30, 40] rfl
  have hd : CustomVector.ctor_default empty_heap = .ok ⟨1, 1, 0⟩ ⟨[some [0]], false⟩ := by decide
  rw [hd] at hc
  cases hc
  exact ⟨rfl, hd, hu⟩

/-- C2 (fails on the code): `capacity() >= size()` is not preserved by `push_back`.  On every
well-formed container that is full and has capacity 0 or 1 the invariant holds before the call,
and the call does not produce a container at all: it is undefined behaviour (the element is
written outside the array). -/
theorem C2_push_back_loses_capacity_invariant {T : Type} [Inhabited T] (s : St T) (x : T)
    (hx : s.heap.exhausted = false) (hwf : wf s)
    (hfull : s.self.current_size = s.self.current_capacity)
    (hsmall : s.self.current_capacity ≤ 1) :
    s.self.capacity ≥ s.self.size ∧ CustomVector.push_back s (.value x) = .undefined ∧
      ∀ s1, CustomVector.push_back s (.value x) ≠ .ok () s1 := by
  have hu := CustomVector.push_back_full_small s x hx hwf hfull hsmall
  refine ⟨?_, hu, ?_⟩
  · simp only [CustomVector.capacity, CustomVector.size]
    omega
  · intro s1 hs1
    rw [hu] at hs1
    cases hs1

/-- Witness of C2: the container made by `CustomVector<int> v(0);`. -/
theorem C2_push_back_loses_capacity_invariant_witness :
    CustomVector.ctor_capacity empty_heap 0 = .ok ⟨1, 0, 0⟩ ⟨[some []], false⟩ ∧
      wf (⟨⟨[some []], false⟩, ⟨1, 0, 0⟩⟩ : St Int) ∧
      CustomVector.push_back (⟨⟨[some []], false⟩, ⟨1, 0, 0⟩⟩ : St Int) (.value 5) = .undefined :=
  ⟨by decide, by decide,
    (C2_push_back_loses_capacity_invariant (⟨⟨[some []], false⟩, ⟨1, 0, 0⟩⟩ : St Int) 5
      rfl (by decide) rfl (by decide)).2.1⟩

/-- C3 (fails on the code): when `push_back` triggers growth on a container of capacity 0 or 1,
the growth step returns with the capacity unchanged (0 stays 0, 1 stays 1), so the capacity is
not strictly greater than before, and the push that follows is undefined behaviour. -/
theorem C3_growth_stalls_at_small_capacity {T : Type} [Inhabited T] (s : St T) (x : T)
    (hx : s.heap.exhausted = false) (hwf : wf s)
    (hfull : s.self.current_size = s.self.current_capacity)
    (hsmall : s.self.current_capacity ≤ 1) :
    (∃ s1, CustomVector.resize s = .ok () s1 ∧
      s1.self.capacity = s.self.capacity ∧ ¬ s1.self.capacity > s.self.capacity) ∧
      CustomVector.push_back s (.value x) = .undefined := by
  have hg : grow_capacity s.self.current_capacity = some s.self.current_capacity := by
    rw [grow_capacity_exact _ (by omega)]
    congr 1
    omega
  obtain ⟨h1, b1, hres, _⟩ :=
    CustomVector.resize_spec s hx hwf s.self.current_capacity hg (by omega)
  exact ⟨⟨_, hres, rfl, Nat.lt_irrefl _⟩,
    CustomVector.push_back_full_small s x hx hwf hfull hsmall⟩

/-- Witness of C3: the default-constructed container after one `push_back(7)` (capacity 1,
size 1); growth leaves the capacity at 1. -/
theorem C3_growth_stalls_at_small_capacity_witness :
    wf (full_of [7]) ∧
      CustomVector.resize (full_of [7]) = .ok () ⟨⟨[none, some [7]], false⟩, ⟨2, 1, 1⟩⟩ ∧
      CustomVector.push_back (full_of [7]) (.value 8) = .undefined :=
  ⟨by decide, by decide,
    (C3_growth_stalls_at_small_capacity (full_of [7]) 8 rfl (by decide) rfl (by decide)).2⟩

/-- C4 (counterexample): on a full container of capacity 3 the growth step sets the capacity to
4, not to `ceil(3 * 1.5) = 5`. -/
theorem C4_resize_capacity_not_ceil :
    CustomVector.resize (full_of [1, 2, 3]) =
        .ok () ⟨⟨[none, some [1, 2, 3, 0]], false⟩, ⟨2, 4, 3⟩⟩ ∧
      ceil_growth 3 = 5 ∧ grow_capacity 3 ≠ some (ceil_growth 3) := by
  decide

/-- C4 (amended): for every well-formed container of capacity `c >= 2`, in the range where the
product with 1.5 is exact (`3 * c < 2 ^ 53`), the growth step returns and sets the new capacity
to `floor(c * 1.5) = c + c / 2`, which is greater than `c`; that is `ceil(c * 1.5)` when `c`
is even and one less when `c` is odd. -/
theorem C4_resize_capacity_is_floor {T : Type} [Inhabited T] (s : St T)
    (hx : s.heap.exhausted = false) (hwf : wf s) (hmin : 2 ≤ s.self.current_capacity)
    (hrange : 3 * s.self.current_capacity < 2 ^ 53) :
    ∃ s1, CustomVector.resize s = .ok () s1 ∧
      s1.self.capacity = s.self.capacity + s.self.capacity / 2 ∧
      s.self.capacity < s1.self.capacity ∧
      2 * s1.self.capacity ≤ 3 * s.self.capacity ∧
      3 * s.self.capacity < 2 * s1.self.capacity + 2 ∧
      (s.self.capacity % 2 = 0 → s1.self.capacity = ceil_growth s.self.capacity) ∧
      (s.self.capacity % 2 = 1 → s1.self.capacity + 1 = ceil_growth s.self.capacity) := by
  obtain ⟨h1, b1, hres, _⟩ :=
    CustomVector.resize_spec s hx hwf _ (grow_capacity_exact _ hrange) (by have := hwf.2.1; omega)
  refine ⟨_, hres, ?_⟩
  simp only [CustomVector.capacity, ceil_growth]
  refine ⟨trivial, by omega, by omega, by omega, ?_, ?_⟩
  · intro heven
    omega
  · intro hodd
    omega

/-- Witness of C4 (amended): a full container of capacity 3 grows to capacity 4. -/
theorem C4_resize_capacity_is_floor_witness :
    wf (full_of [1, 2, 3]) ∧
      ∃ s1, CustomVector.resize (full_of [1, 2, 3]) = .ok () s1 ∧
        s1.self.capacity = 3 + 3 / 2 ∧ s1.self.capacity + 1 = ceil_growth 3 := by
  obtain ⟨s1, h1, h2, _, _, _, _, h3⟩ :=
    C4_resize_capacity_is_floor (full_of [1, 2, 3]) rfl (by decide) (by decide) (by decide)
  exact ⟨by decide, s1, h1, h2, h3 (by decide)⟩

/-- C5: for every well-formed container with `size == capacity` (capacity in the range where the
product with 1.5 is exact, allocator with memory), the growth step returns, leaves the size
unchanged, and every live element reads the same at the same index before and after. -/
theorem C5_resize_keeps_size_and_elements {T : Type} [Inhabited T] (s : St T)
    (hx : s.heap.exhausted = false) (hwf : wf s)
    (hfull : s.self.current_size = s.self.current_capacity)
    (hrange : 3 * s.self.current_capacity < 2 ^ 53) :
    ∃ s1, CustomVector.resize s = .ok () s1 ∧ s1.self.size = s.self.size ∧
      ∀ i, i < s.self.size →
        ∃ x, CustomVector.get_index s i = .ok x s ∧ CustomVector.get_index s1 i = .ok x s1 := by
  obtain ⟨h1, b1, hres, hb1, _, helems, _⟩ :=
    CustomVector.resize_spec s hx hwf _ (grow_capacity_exact _ hrange) (by omega)
  refine ⟨_, hres, rfl, ?_⟩
  intro i hi
  simp only [CustomVector.size] at hi
  obtain ⟨x, hxl⟩ := wf_load s hwf i hi
  refine ⟨x, CustomVector.get_index_ok s i x hi hxl, ?_⟩
  exact CustomVector.get_index_ok
    ⟨h1, ⟨s.heap.blocks.length + 1, s.self.current_capacity + s.self.current_capacity / 2,
      s.self.current_size⟩⟩ i x hi
    (by rw [Heap.load_eq h1 _ i b1 hb1, helems i hi, hxl])

/-- Witness of C5: growth of the full container `[10, 20, 30, 40]`. -/
theorem C5_resize_keeps_size_and_elements_witness :
    wf (full_of [10, 20, 30, 40]) ∧
      ∃ s1, CustomVector.resize (full_of [10, 20, 30, 40]) = .ok () s1 ∧ s1.self.size = 4 ∧
        ∀ i, i < 4 → ∃ x, CustomVector.get_index (full_of [10, 20, 30, 40]) i =
            .ok x (full_of [10, 20, 30, 40]) ∧ CustomVector.get_index s1 i = .ok x s1 :=
  ⟨by decide,
    C5_resize_keeps_size_and_elements (full_of [10, 20, 30, 40]) rfl (by decide) rfl (by decide)⟩

/-- C6: `operator[]` and `at`, const and non-const, are the same function of the state and the
index.  Each throws `out_of_range` exactly when `index >= size()`, and then the state is the one
before the call; otherwise each returns the reference to slot `index` of the buffer and changes
nothing, so reading through it yields the element stored there (on a well-formed container
every index below `size()` holds an element). -/
theorem C6_checked_access {T : Type} (s : St T) (index : Nat) :
    CustomVector.operator_index_const s index = CustomVector.operator_index s index ∧
      CustomVector.at_ s index = CustomVector.operator_index s index ∧
      CustomVector.at_const s index = CustomVector.operator_index s index ∧
      ((∃ s1, CustomVector.operator_index s index = .throw .out_of_range s1) ↔
        index ≥ s.self.size) ∧
      (∀ e s1, CustomVector.operator_index s index = .throw e s1 →
        e = .out_of_range ∧ s1 = s ∧ index ≥ s.self.size) ∧
      (index < s.self.size →
        CustomVector.operator_index s index = .ok ⟨s.self.data_arr, index⟩ s ∧
        (∀ x, s.heap.load s.self.data_arr index = some x →
          CustomVector.get_index s index = .ok x s)) ∧
      (wf s → index < s.self.size →
        ∃ x, s.heap.load s.self.data_arr index = some x ∧
          CustomVector.get_index s index = .ok x s) ∧
      CustomVector.operator_index s index ≠ .undefined := by
  simp only [CustomVector.size]
  refine ⟨rfl, rfl, rfl, ?_, ?_, ?_, ?_, ?_⟩
  · by_cases hi : index ≥ s.self.current_size
    · simp [CustomVector.operator_index, hi]
    · simp [CustomVector.operator_index, hi]
  · intro e s1 h
    by_cases hi : index ≥ s.self.current_size
    · simp only [CustomVector.operator_index, if_pos hi] at h
      cases h
      exact ⟨rfl, rfl, hi⟩
    · simp only [CustomVector.operator_index, if_neg hi] at h
      cases h
  · intro hi
    have hidx : ¬ (index ≥ s.self.current_size) := by omega
    refine ⟨by simp only [CustomVector.operator_index, if_neg hidx], ?_⟩
    intro x hl
    exact CustomVector.get_index_ok s index x hi hl
  · intro hwf hi
    obtain ⟨x, hl⟩ := wf_load s hwf index hi
    exact ⟨x, hl, CustomVector.get_index_ok s index x hi hl⟩
  · by_cases hi : index ≥ s.self.current_size
    · simp [CustomVector.operator_index, hi]
    · simp [CustomVector.operator_index, hi]

/-- Witness of C6 on the container `[0, 10, 20, 30, 40]`: `v[4]` is 40, while `at(5)` (index ==
size) and `at(10)` (test.cpp line 49) throw. -/
theorem C6_checked_access_witness :
    CustomVector.get_index (full_of [0, 10, 20, 30, 40]) 4 = .ok 40 (full_of [0, 10, 20, 30, 40]) ∧
      CustomVector.at_ (full_of [0, 10, 20, 30, 40]) 5 =
        .throw .out_of_range (full_of [0, 10, 20, 30, 40]) ∧
      CustomVector.at_ (full_of [0, 10, 20, 30, 40]) 10 =
        .throw .out_of_range (full_of [0, 10, 20, 30, 40]) := by
  have h := C6_checked_access (full_of [0, 10, 20, 30, 40]) 4
  exact ⟨(h.2.2.2.2.2.1 (by decide)).2 40 (by decide), by decide, by decide⟩

/-- C7: `front()` and `back()`, const and non-const, throw `out_of_range` exactly when
`size() == 0`; the state after a throw is the state before it, so `empty()` is still true.  When
`size() > 0`, `front()` returns the reference to slot 0 and `back()` the reference to slot
`size() - 1` (the references `v[0]` and `v[size() - 1]` return), without changing anything. -/
theorem C7_front_back {T : Type} (s : St T) :
    CustomVector.front_const s = CustomVector.front s ∧
      CustomVector.back_const s = CustomVector.back s ∧
      ((∃ s1, CustomVector.front s = .throw .out_of_range s1) ↔ s.self.size = 0) ∧
      ((∃ s1, CustomVector.back s = .throw .out_of_range s1) ↔ s.self.size = 0) ∧
      (∀ e s1, CustomVector.front s = .throw e s1 ∨ CustomVector.back s = .throw e s1 →
        e = .out_of_range ∧ s1 = s ∧ s1.self.empty = true) ∧
      (s.self.size > 0 →
        CustomVector.front s = .ok ⟨s.self.data_arr, 0⟩ s ∧
        CustomVector.back s = .ok ⟨s.self.data_arr, s.self.size - 1⟩ s ∧
        CustomVector.front s = CustomVector.operator_index s 0 ∧
        CustomVector.back s = CustomVector.operator_index s (s.self.size - 1)) ∧
      CustomVector.front s ≠ .undefined ∧ CustomVector.back s ≠ .undefined := by
  simp only [CustomVector.size]
  by_cases h0 : s.self.current_size = 0
  · refine ⟨rfl, rfl, ?_, ?_, ?_, ?_, ?_, ?_⟩
    · simp [CustomVector.front, h0]
    · simp [CustomVector.back, h0]
    · intro e s1 h
      simp only [CustomVector.front, CustomVector.back, if_pos h0] at h
      rcases h with h | h <;> cases h <;> exact ⟨rfl, rfl, by simp [CustomVector.empty, h0]⟩
    · intro hpos
      omega
    · simp [CustomVector.front, h0]
    · simp [CustomVector.back, h0]
  · refine ⟨rfl, rfl, ?_, ?_, ?_, ?_, ?_, ?_⟩
    · simp [CustomVector.front, h0]
    · simp [CustomVector.back, h0]
    · intro e s1 h
      simp only [CustomVector.front, CustomVector.back, if_neg h0] at h
      rcases h with h | h <;> cases h
    · intro _
      have hlast : ¬ (s.self.current_size - 1 ≥ s.self.current_size) := by omega
      have hfirst : ¬ (0 ≥ s.self.current_size) := by omega
      simp only [CustomVector.front, CustomVector.back, CustomVector.operator_index, if_neg h0,
        if_neg hlast, if_neg hfirst]
      exact ⟨trivial, trivial, trivial, trivial⟩
    · simp [CustomVector.front, h0]
    · simp [CustomVector.back, h0]

/-- Witness of C7 on test.cpp: `front()` and `back()` of `[0, 10, 20, 30, 40]` refer to slots 0
and 4 (lines 45-46); on a default-constructed container both throw and leave it as it was
(lines 110-125). -/
theorem C7_front_back_witness :
    CustomVector.front (full_of [0, 10, 20, 30, 40]) = .ok ⟨1, 0⟩ (full_of [0, 10, 20, 30, 40]) ∧
      CustomVector.back (full_of [0, 10, 20, 30, 40]) = .ok ⟨1, 4⟩ (full_of [0, 10, 20, 30, 40]) ∧
      CustomVector.front (⟨⟨[some [0]], false⟩, ⟨1, 1, 0⟩⟩ : St Int) =
        .throw .out_of_range ⟨⟨[some [0]], false⟩, ⟨1, 1, 0⟩⟩ ∧
      CustomVector.back (⟨⟨[some [0]], false⟩, ⟨1, 1, 0⟩⟩ : St Int) =
        .throw .out_of_range ⟨⟨[some [0]], false⟩, ⟨1, 1, 0⟩⟩ := by
  have h := (C7_front_back (full_of [0, 10, 20, 30, 40])).2.2.2.2.2.1 (by decide)
  exact ⟨h.1, h.2.1, by decide, by decide⟩

/-- C8: `pop_back()` always returns normally and touches neither the free store, nor the buffer
pointer, nor the capacity.  On an empty container it changes nothing; otherwise the size drops by
exactly one.  Every element below the new size reads as before, and when two or more elements
were held, `back()` afterwards refers to slot `size - 2` of the old contents. -/
theorem C8_pop_back {T : Type} (s : St T) :
    ∃ s1, CustomVector.pop_back s = .ok () s1 ∧
      s1.heap = s.heap ∧ s1.self.data_arr = s.self.data_arr ∧
      s1.self.capacity = s.self.capacity ∧
      (s.self.size = 0 → s1 = s) ∧
      (s.self.size > 0 → s1.self.size + 1 = s.self.size) ∧
      (∀ i x, i < s1.self.size → CustomVector.get_index s i = .ok x s →
        CustomVector.get_index s1 i = .ok x s1) ∧
      (2 ≤ s.self.size →
        CustomVector.back s1 = .ok ⟨s.self.data_arr, s.self.size - 2⟩ s1) := by
  simp only [CustomVector.size, CustomVector.capacity]
  by_cases h0 : s.self.current_size > 0
  · refine ⟨{ s with self := { s.self with current_size := s.self.current_size - 1 } },
      by simp only [CustomVector.pop_back, if_pos h0], rfl, rfl, rfl, ?_, ?_, ?_, ?_⟩
    · intro hz
      omega
    · intro _
      simp only
      omega
    · intro i x hi hget
      simp only at hi
      have h1 : ¬ (i ≥ s.self.current_size) := by omega
      have h2 : ¬ (i ≥ s.self.current_size - 1) := by omega
      simp only [CustomVector.get_index, CustomVector.operator_index, if_neg h1,
        Result.bind] at hget
      simp only [CustomVector.get_index, CustomVector.operator_index, if_neg h2, Result.bind]
      cases hl : s.heap.load s.self.data_arr i with
      | none => rw [hl] at hget; cases hget
      | some y =>
        rw [hl] at hget
        simp only
        cases hget
        rfl
    · intro h2
      have hne : ¬ (s.self.current_size - 1 = 0) := by omega
      simp only [CustomVector.back, if_neg hne]
      rfl
  · refine ⟨s, by simp only [CustomVector.pop_back, if_neg h0], rfl, rfl, rfl, fun _ => rfl,
      ?_, ?_, ?_⟩
    · intro hpos
      omega
    · intro i x _ hget
      exact hget
    · intro h2
      omega

/-- Witness of C8 on test.cpp (line 69): `pop_back` on `[0, 10, 20, 30, 40]` leaves capacity 5,
size 4 and `back()` referring to slot 3. -/
theorem C8_pop_back_witness :
    ∃ s1, CustomVector.pop_back (full_of [0, 10, 20, 30, 40]) = .ok () s1 ∧
      s1.self.capacity = 5 ∧ s1.self.size + 1 = 5 ∧ CustomVector.back s1 = .ok ⟨1, 3⟩ s1 := by
  obtain ⟨s1, h1, _, _, hc, _, hs, _, hb⟩ := C8_pop_back (full_of [0, 10, 20, 30, 40])
  exact ⟨s1, h1, hc, hs (by decide), hb (by decide)⟩

/-- C9: for every well-formed source (allocator with memory), the copy constructor, and copy
assignment into any distinct well-formed target that does not share the source's buffer, return
normally (so no `out_of_range` is raised) with an object whose `size()` and `capacity()` are the
source's and whose element at every index below `size()` reads the same as the source's; the
source object and its array are unchanged, and the copy's buffer is not the source's. -/
theorem C9_copy_construct_and_assign {T : Type} [Inhabited T] (h : Heap T)
    (src tgt : CustomVector) (hx : h.exhausted = false) (hsrc : wf ⟨h, src⟩)
    (htgt : wf ⟨h, tgt⟩) (hdist : tgt.data_arr = 0 ∨ tgt.data_arr ≠ src.data_arr) :
    (∃ v h1, CustomVector.ctor_copy h src = .ok v h1 ∧
      v.size = src.size ∧ v.capacity = src.capacity ∧ v.data_arr ≠ src.data_arr ∧
      wf ⟨h1, v⟩ ∧ h1.block src.data_arr = h.block src.data_arr ∧
      ∀ i, i < src.size → ∃ x, CustomVector.get_index ⟨h, src⟩ i = .ok x ⟨h, src⟩ ∧
        CustomVector.get_index ⟨h1, v⟩ i = .ok x ⟨h1, v⟩ ∧
        CustomVector.get_index ⟨h1, src⟩ i = .ok x ⟨h1, src⟩) ∧
    (∃ s1, CustomVector.assign_copy ⟨h, tgt, some src⟩ = .ok () s1 ∧ s1.other = some src ∧
      s1.self.size = src.size ∧ s1.self.capacity = src.capacity ∧
      s1.self.data_arr ≠ src.data_arr ∧
      wf ⟨s1.heap, s1.self⟩ ∧ s1.heap.block src.data_arr = h.block src.data_arr ∧
      ∀ i, i < src.size → ∃ x, CustomVector.get_index ⟨h, src⟩ i = .ok x ⟨h, src⟩ ∧
        CustomVector.get_index ⟨s1.heap, s1.self⟩ i = .ok x ⟨s1.heap, s1.self⟩ ∧
        CustomVector.get_index ⟨s1.heap, src⟩ i = .ok x ⟨s1.heap, src⟩) := by
  have hle : src.data_arr ≤ h.blocks.length := wf_data_arr_le ⟨h, src⟩ hsrc
  have hne : h.blocks.length + 1 ≠ src.data_arr := by omega
  have hcap : src.current_capacity < 2 ^ 64 := hsrc.1
  have hsz : src.current_size ≤ src.current_capacity := hsrc.2.1
  constructor
  · obtain ⟨h1, b1, hrun, hb1, hl1, helems, hoth, _, _⟩ :=
      CustomVector.ctor_copy_spec h src hx hsrc
    have hkeep : h1.block src.data_arr = h.block src.data_arr := hoth _ (Ne.symm hne)
    refine ⟨_, h1, hrun, rfl, rfl, hne, ⟨hcap, hsz, Or.inl ?_⟩, hkeep, ?_⟩
    · simp [owns_buffer, hb1, hl1]
    · intro i hi
      simp only [CustomVector.size] at hi
      obtain ⟨x, hxl⟩ := wf_load ⟨h, src⟩ hsrc i hi
      refine ⟨x, CustomVector.get_index_ok ⟨h, src⟩ i x hi hxl,
        CustomVector.get_index_ok ⟨h1, _⟩ i x hi ?_, CustomVector.get_index_ok ⟨h1, src⟩ i x hi ?_⟩
      · rw [Heap.load_eq h1 _ i b1 hb1, helems i hi]
        exact hxl
      · simp only [Heap.load, hkeep]
        exact hxl
  · obtain ⟨h3, b1, hrun, hb1, hl1, helems, _, hkeep, _, _⟩ :=
      CustomVector.assign_copy_spec h tgt src hx hsrc htgt hdist
    refine ⟨_, hrun, rfl, rfl, rfl, hne, ⟨hcap, hsz, Or.inl ?_⟩, hkeep, ?_⟩
    · simp [owns_buffer, hb1, hl1]
    · intro i hi
      simp only [CustomVector.size] at hi
      obtain ⟨x, hxl⟩ := wf_load ⟨h, src⟩ hsrc i hi
      refine ⟨x, CustomVector.get_index_ok ⟨h, src⟩ i x hi hxl,
        CustomVector.get_index_ok ⟨h3, _⟩ i x hi ?_, CustomVector.get_index_ok ⟨h3, src⟩ i x hi ?_⟩
      · rw [Heap.load_eq h3 _ i b1 hb1, helems i hi]
        exact hxl
      · simp only [Heap.load, hkeep]
        exact hxl

/-- Witness of C9 on test.cpp (lines 57-65): the source holds `[0, 10, 20, 30, 40]` and the
target of the assignment is a default-constructed container. -/
theorem C9_copy_construct_and_assign_witness :
    wf (⟨⟨[some [0, 10, 20, 30, 40], some [0]], false⟩, ⟨1, 5, 5⟩⟩ : St Int) ∧
      wf (⟨⟨[some [0, 10, 20, 30, 40], some [0]], false⟩, ⟨2, 1, 0⟩⟩ : St Int) ∧
      CustomVector.ctor_copy (⟨[some [0, 10, 20, 30, 40], some [0]], false⟩ : Heap Int) ⟨1, 5, 5⟩ =
        .ok ⟨3, 5, 5⟩ ⟨[some [0, 10, 20, 30, 40], some [0], some [0, 10, 20, 30, 40]], false⟩ ∧
      ∃ s1, CustomVector.assign_copy
          (⟨⟨[some [0, 10, 20, 30, 40], some [0]], false⟩, ⟨2, 1, 0⟩, some ⟨1, 5, 5⟩⟩ : St2 Int) =
            .ok () s1 ∧ s1.self.size = 5 ∧ s1.self.capacity = 5 ∧ s1.other = some ⟨1, 5, 5⟩ := by
  obtain ⟨_, s1, hrun, ho, hs, hc, _⟩ :=
    C9_copy_construct_and_assign (⟨[some [0, 10, 20, 30, 40], some [0]], false⟩ : Heap Int)
      ⟨1, 5, 5⟩ ⟨2, 1, 0⟩ rfl (by decide) (by decide) (by decide)
  exact ⟨by decide, by decide, by decide, s1, hrun, hs, hc, ho⟩

/-- C10 (fails on the code in one case): let `b` be the copy of a well-formed container `a`.
Writing through `b[i]`, `pop_back` on `b`, and `push_back` on `b` when `b` has spare capacity or
a capacity of at least 2, all leave the object `a` and its array untouched, so `a` reads as
before.  But when `b` is full with capacity 0 or 1, `push_back` on `b` is undefined behaviour
(a write outside `b`'s array), and nothing is guaranteed about `a`. -/
theorem C10_copy_independence {T : Type} [Inhabited T] (h : Heap T) (a : CustomVector)
    (hx : h.exhausted = false) (hwf : wf ⟨h, a⟩) :
    ∃ b h1, CustomVector.ctor_copy h a = .ok b h1 ∧ reads_preserved a h h1 ∧
      (∀ i x, i ≥ b.size →
        CustomVector.assign_index ⟨h1, b⟩ i x = .throw .out_of_range ⟨h1, b⟩) ∧
      (∀ i x, i < b.size → ∃ h2, CustomVector.assign_index ⟨h1, b⟩ i x = .ok () ⟨h2, b⟩ ∧
        CustomVector.get_index ⟨h2, b⟩ i = .ok x ⟨h2, b⟩ ∧ reads_preserved a h h2) ∧
      (∃ s2, CustomVector.pop_back ⟨h1, b⟩ = .ok () s2 ∧ reads_preserved a h s2.heap) ∧
      (∀ x, b.size < b.capacity ∨ 2 ≤ b.capacity → 3 * b.capacity < 2 ^ 53 →
        ∃ s2, CustomVector.push_back ⟨h1, b⟩ (.value x) = .ok () s2 ∧ reads_preserved a h s2.heap) ∧
      (∀ x, b.size = b.capacity → b.capacity ≤ 1 →
        CustomVector.push_back ⟨h1, b⟩ (.value x) = .undefined) := by
  have hle : a.data_arr ≤ h.blocks.length := wf_data_arr_le ⟨h, a⟩ hwf
  have hne : a.data_arr ≠ h.blocks.length + 1 := by omega
  obtain ⟨h1, b1, hrun, hb1, hl1, _, hoth, hex1, hlen1⟩ := CustomVector.ctor_copy_spec h a hx hwf
  have hkeep : h1.block a.data_arr = h.block a.data_arr := hoth _ hne
  have hwfb : wf (⟨h1, ⟨h.blocks.length + 1, a.current_capacity, a.current_size⟩⟩ : St T) := by
    refine ⟨hwf.1, hwf.2.1, Or.inl ?_⟩
    simp [owns_buffer, hb1, hl1]
  have hsz : a.current_size ≤ a.current_capacity := hwf.2.1
  refine ⟨_, h1, hrun, reads_preserved_of_block_eq a h h1 hkeep, ?_, ?_, ?_, ?_, ?_⟩
  · intro i x hi
    simp only [CustomVector.size] at hi
    simp only [CustomVector.assign_index, CustomVector.operator_index, if_pos hi, Result.bind]
  · intro i x hi
    simp only [CustomVector.size] at hi
    have hidx : ¬ (i ≥ a.current_size) := by omega
    have hib : i < b1.length := by omega
    obtain ⟨h2, hst, hb2, hoth2, _, _⟩ :=
      Heap.store_spec h1 (h.blocks.length + 1) i x b1 hb1 hib
    refine ⟨h2, ?_, ?_, ?_⟩
    · simp only [CustomVector.assign_index, CustomVector.operator_index, if_neg hidx,
        Result.bind, hst]
    · apply CustomVector.get_index_ok ⟨h2, ⟨h.blocks.length + 1, _, _⟩⟩ i x hi
      simp only [Heap.load, hb2]
      simp [List.getElem?_set, hib]
    · apply reads_preserved_of_block_eq
      rw [hoth2 _ hne]
      exact hkeep
  · obtain ⟨s2, hpop, hheap⟩ :=
      CustomVector.pop_back_heap
        (⟨h1, ⟨h.blocks.length + 1, a.current_capacity, a.current_size⟩⟩ : St T)
    refine ⟨s2, hpop, ?_⟩
    rw [hheap]
    exact reads_preserved_of_block_eq a h h1 hkeep
  · intro x hroom hrange
    obtain ⟨s2, hpush, _, _, _, _, _, hframe, _, _⟩ :=
      CustomVector.push_back_ok ⟨h1, ⟨h.blocks.length + 1, a.current_capacity, a.current_size⟩⟩ x
        hex1 hwfb hroom hrange
    refine ⟨s2, hpush, reads_preserved_of_block_eq a h s2.heap ?_⟩
    rw [hframe a.data_arr hne (by simp only; omega)]
    exact hkeep
  · intro x hfull hsmall
    exact CustomVector.push_back_full_small _ x hex1 hwfb hfull hsmall

/-- Witness of C10: `a` is a default-constructed container after `push_back(10)`; `push_back(20)`
on its copy is undefined behaviour, while `b[0] = 99` returns and leaves the array of `a`
holding 10. -/
theorem C10_copy_independence_witness :
    wf (full_of [10]) ∧
      CustomVector.ctor_copy (full_of [10]).heap (full_of [10]).self =
        .ok ⟨2, 1, 1⟩ ⟨[some [10], some [10]], false⟩ ∧
      CustomVector.push_back (⟨⟨[some [10], some [10]], false⟩, ⟨2, 1, 1⟩⟩ : St Int) (.value 20) =
        .undefined ∧
      CustomVector.assign_index (⟨⟨[some [10], some [10]], false⟩, ⟨2, 1, 1⟩⟩ : St Int) 0 99 =
        .ok () ⟨⟨[some [10], some [99]], false⟩, ⟨2, 1, 1⟩⟩ := by
  obtain ⟨b, h1, hrun, _, _, _, _, _, hover⟩ :=
    C10_copy_independence (full_of [10]).heap (full_of [10]).self rfl (by decide)
  have hd : CustomVector.ctor_copy (full_of [10]).heap (full_of [10]).self =
      .ok ⟨2, 1, 1⟩ ⟨[some [10], some [10]], false⟩ := by decide
  rw [hd] at hrun
  cases hrun
  exact ⟨by decide, hd, hover 20 rfl (by decide), by decide⟩

/-! ## Lemmas for moves, constructors and allocation failure -/

/-- The moved-from state is well-formed in every free store. -/
theorem wf_moved_from {T : Type} (h : Heap T) : wf (⟨h, ⟨0, 0, 0⟩⟩ : St T) :=
  ⟨by simp, Nat.le_refl _, Or.inr ⟨rfl, rfl⟩⟩

/-- `pop_back()` keeps a well-formed container well-formed. -/
theorem CustomVector.pop_back_wf {T : Type} (s : St T) (hwf : wf s) :
    ∃ s1, CustomVector.pop_back s = .ok () s1 ∧ wf s1 ∧ s1.heap = s.heap ∧
      s1.self.data_arr = s.self.data_arr ∧
      s1.self.current_capacity = s.self.current_capacity ∧
      s1.self.current_size = s.self.current_size - 1 := by
  by_cases h0 : s.self.current_size > 0
  · refine ⟨{ s with self := { s.self with current_size := s.self.current_size - 1 } },
      by simp only [CustomVector.pop_back, if_pos h0], ?_, rfl, rfl, rfl, rfl⟩
    obtain ⟨h1, h2, h3⟩ := hwf
    exact ⟨h1, by simp only; omega, h3⟩
  · refine ⟨s, by simp only [CustomVector.pop_back, if_neg h0], hwf, rfl, rfl, rfl, by omega⟩

/-! ## The claims, continued -/

/-- C11: move construction gives the new object exactly the source's buffer pointer, capacity
and size, hence its elements, and leaves the source with `nullptr`, capacity 0 and size 0.  Move
assignment into a distinct well-formed target that does not share the source's buffer releases
the target's old array and does the same; the source's former array is untouched, so the
destination reads what the source read.  Destroying the moved-from source is a no-op. -/
theorem C11_move_construct_and_assign {T : Type} (h : Heap T) (src tgt : CustomVector)
    (htgt : wf ⟨h, tgt⟩) (hdist : tgt.data_arr = 0 ∨ tgt.data_arr ≠ src.data_arr) :
    ((CustomVector.ctor_move src).1 = src ∧
      (CustomVector.ctor_move src).2.size = 0 ∧ (CustomVector.ctor_move src).2.capacity = 0 ∧
      (CustomVector.ctor_move src).2.data_arr = 0 ∧
      CustomVector.dtor ⟨h, (CustomVector.ctor_move src).2⟩ = some h) ∧
    (∃ s1, CustomVector.assign_move ⟨h, tgt, some src⟩ = .ok () s1 ∧
      s1.self = src ∧ s1.self.size = src.size ∧ s1.self.capacity = src.capacity ∧
      s1.other = some ⟨0, 0, 0⟩ ∧
      s1.heap.block src.data_arr = h.block src.data_arr ∧ reads_preserved src h s1.heap ∧
      CustomVector.dtor ⟨s1.heap, ⟨0, 0, 0⟩⟩ = some s1.heap) := by
  refine ⟨⟨rfl, rfl, rfl, rfl, rfl⟩, ?_⟩
  obtain ⟨h1, hdel, _, hoth, _, _⟩ := wf_delete_array ⟨h, tgt⟩ htgt
  simp only at hdel hoth
  have hkeep : h1.block src.data_arr = h.block src.data_arr := by
    by_cases heq : src.data_arr = tgt.data_arr
    · rcases hdist with hz | hne
      · rw [heq, hz]
        rfl
      · exact absurd heq.symm hne
    · exact hoth _ heq
  refine ⟨⟨h1, src, some ⟨0, 0, 0⟩⟩, ?_, rfl, rfl, rfl, rfl, hkeep,
    reads_preserved_of_block_eq src h h1 hkeep, rfl⟩
  simp only [CustomVector.assign_move, hdel]

/-- Witness of C11 on test.cpp (lines 97-106): the source holds `[2, 4, 6, 8, 10]`, the target of
the assignment is a default-constructed container. -/
theorem C11_move_construct_and_assign_witness :
    wf (⟨⟨[some [2, 4, 6, 8, 10], some [0]], false⟩, ⟨2, 1, 0⟩⟩ : St Int) ∧
      CustomVector.ctor_move ⟨1, 5, 5⟩ = (⟨1, 5, 5⟩, ⟨0, 0, 0⟩) ∧
      CustomVector.assign_move
          (⟨⟨[some [2, 4, 6, 8, 10], some [0]], false⟩, ⟨2, 1, 0⟩, some ⟨1, 5, 5⟩⟩ : St2 Int) =
        .ok () ⟨⟨[some [2, 4, 6, 8, 10], none], false⟩, ⟨1, 5, 5⟩, some ⟨0, 0, 0⟩⟩ := by
  have h := C11_move_construct_and_assign
    (⟨[some [2, 4, 6, 8, 10], some [0]], false⟩ : Heap Int) ⟨1, 5, 5⟩ ⟨2, 1, 0⟩
    (by decide) (by decide)
  exact ⟨by decide, by rw [Prod.ext_iff]; exact ⟨h.1.1, rfl⟩, by decide⟩

/-- C12 (fails on the code): a moved-from container cannot take a `push_back`.  It has size 0
and capacity 0, so the push calls the growth step, which leaves the capacity at 0 and allocates
an array of no slots; the write `data_arr[0] = element` is outside it: undefined behaviour.  This
holds for the source of a move construction and for the source of a move assignment. -/
theorem C12_push_back_on_moved_from_overflows {T : Type} [Inhabited T] (h : Heap T)
    (a tgt : CustomVector) (x : T) (hx : h.exhausted = false) (htgt : wf ⟨h, tgt⟩) :
    (∃ s1, CustomVector.resize ⟨h, (CustomVector.ctor_move a).2⟩ = .ok () s1 ∧
      s1.self.capacity = 0) ∧
    CustomVector.push_back ⟨h, (CustomVector.ctor_move a).2⟩ (.value x) = .undefined ∧
    (∃ s1 a1, CustomVector.assign_move ⟨h, tgt, some a⟩ = .ok () s1 ∧ s1.other = some a1 ∧
      a1.size = 0 ∧ CustomVector.push_back ⟨s1.heap, a1⟩ (.value x) = .undefined) := by
  have hwf0 : wf (⟨h, ⟨0, 0, 0⟩⟩ : St T) := wf_moved_from h
  refine ⟨?_, CustomVector.push_back_full_small ⟨h, ⟨0, 0, 0⟩⟩ x hx hwf0 rfl (by simp), ?_⟩
  · obtain ⟨h1, b1, hres, _⟩ :=
      CustomVector.resize_spec ⟨h, ⟨0, 0, 0⟩⟩ hx hwf0 0 (grow_capacity_exact 0 (by decide))
        (Nat.le_refl _)
    exact ⟨_, hres, rfl⟩
  · obtain ⟨h1, hdel, _, _, hex, _⟩ := wf_delete_array ⟨h, tgt⟩ htgt
    simp only at hdel hex
    refine ⟨⟨h1, a, some ⟨0, 0, 0⟩⟩, ⟨0, 0, 0⟩, ?_, rfl, rfl, ?_⟩
    · simp only [CustomVector.assign_move, hdel]
    · exact CustomVector.push_back_full_small ⟨h1, ⟨0, 0, 0⟩⟩ x (by rw [hex]; exact hx)
        (wf_moved_from h1) rfl (by simp)

/-- Witness of C12 on the scenario of the specification: `A` holds five elements, `B = move(A)`,
then `A.push_back(7)`. -/
theorem C12_push_back_on_moved_from_overflows_witness :
    CustomVector.ctor_move ⟨1, 5, 5⟩ = (⟨1, 5, 5⟩, ⟨0, 0, 0⟩) ∧
      CustomVector.push_back (⟨⟨[some [1, 2, 3, 4, 5]], false⟩, ⟨0, 0, 0⟩⟩ : St Int) (.value 7) =
        .undefined :=
  ⟨rfl, (C12_push_back_on_moved_from_overflows (⟨[some [1, 2, 3, 4, 5]], false⟩ : Heap Int)
    ⟨1, 5, 5⟩ ⟨0, 0, 0⟩ 7 rfl (by decide)).2.1⟩

/-- C13: copy assignment and move assignment of a container to itself (`this == &other`) return
at once with the free store and the object exactly as they were, so size, capacity and every
element are unchanged. -/
theorem C13_self_assignment {T : Type} [Inhabited T] (h : Heap T) (a : CustomVector) :
    CustomVector.assign_copy (⟨h, a, none⟩ : St2 T) = .ok () ⟨h, a, none⟩ ∧
      CustomVector.assign_move (⟨h, a, none⟩ : St2 T) = .ok () ⟨h, a, none⟩ ∧
      (∀ s1, CustomVector.assign_copy (⟨h, a, none⟩ : St2 T) = .ok () s1 ∨
          CustomVector.assign_move (⟨h, a, none⟩ : St2 T) = .ok () s1 →
        s1.self.size = a.size ∧ s1.self.capacity = a.capacity ∧
        s1.self.data_arr = a.data_arr ∧ s1.heap = h ∧ reads_preserved a h s1.heap) := by
  refine ⟨rfl, rfl, ?_⟩
  intro s1 hs
  have hs1 : s1 = ⟨h, a, none⟩ := by
    rcases hs with hs | hs
    · simp only [CustomVector.assign_copy] at hs
      cases hs
      rfl
    · simp only [CustomVector.assign_move] at hs
      cases hs
      rfl
  subst hs1
  exact ⟨rfl, rfl, rfl, rfl, fun _ _ hget => hget⟩

/-- Witness of C13: self-assignment of the container `[10, 20, 30]`. -/
theorem C13_self_assignment_witness :
    CustomVector.assign_copy (⟨(full_of [10, 20, 30]).heap, (full_of [10, 20, 30]).self, none⟩ :
        St2 Int) = .ok () ⟨⟨[some [10, 20, 30]], false⟩, ⟨1, 3, 3⟩, none⟩ ∧
      CustomVector.assign_move (⟨(full_of [10, 20, 30]).heap, (full_of [10, 20, 30]).self, none⟩ :
        St2 Int) = .ok () ⟨⟨[some [10, 20, 30]], false⟩, ⟨1, 3, 3⟩, none⟩ :=
  ⟨(C13_self_assignment (full_of [10, 20, 30]).heap (full_of [10, 20, 30]).self).1,
    (C13_self_assignment (full_of [10, 20, 30]).heap (full_of [10, 20, 30]).self).2.1⟩

/-- C14: when the allocator has memory, the default constructor yields a container with
`size() == 0`, `capacity() == 1` and `empty()` true, and for every `N`, 0 included, the capacity
constructor yields a container with `size() == 0` and `capacity() == N`; each owns a fresh array
of that many slots. -/
theorem C14_constructors {T : Type} [Inhabited T] (h : Heap T) (n : Nat)
    (hx : h.exhausted = false) :
    (∃ v h1, CustomVector.ctor_default h = .ok v h1 ∧ v.size = 0 ∧ v.capacity = 1 ∧
      v.empty = true ∧ wf ⟨h1, v⟩) ∧
    (∃ v h1, CustomVector.ctor_capacity h n = .ok v h1 ∧ v.size = 0 ∧ v.capacity = n ∧
      v.empty = true ∧ owns_buffer ⟨h1, v⟩) := by
  constructor
  · obtain ⟨h1, hnew, hb1, _⟩ := Heap.new_array_spec h 1 hx
    refine ⟨⟨h.blocks.length + 1, 1, 0⟩, h1, ?_, rfl, rfl, rfl, ⟨by simp, by simp, Or.inl ?_⟩⟩
    · simp only [CustomVector.ctor_default, hnew]
    · simp [owns_buffer, hb1]
  · obtain ⟨h1, hnew, hb1, _⟩ := Heap.new_array_spec h n hx
    refine ⟨⟨h.blocks.length + 1, n, 0⟩, h1, ?_, rfl, rfl, rfl, ?_⟩
    · simp only [CustomVector.ctor_capacity, hnew]
    · simp [owns_buffer, hb1]

/-- Witness of C14 on test.cpp (lines 27-31): `CustomVector<int> vec1;` and
`CustomVector<int> vec2(10);`, and the capacity constructor at 0. -/
theorem C14_constructors_witness :
    empty_heap.exhausted = false ∧
      (∃ v h1, CustomVector.ctor_capacity empty_heap 10 = .ok v h1 ∧ v.size = 0 ∧
        v.capacity = 10) ∧
      CustomVector.ctor_default empty_heap = .ok ⟨1, 1, 0⟩ ⟨[some [0]], false⟩ ∧
      CustomVector.ctor_capacity empty_heap 0 = .ok ⟨1, 0, 0⟩ ⟨[some []], false⟩ := by
  obtain ⟨_, v, h1, hrun, hs, hc, _⟩ := C14_constructors empty_heap 10 rfl
  exact ⟨rfl, ⟨v, h1, hrun, hs, hc⟩, by decide, by decide⟩

/-- The growth step when the allocator has no memory: `std::bad_alloc` propagates, and the
capacity has already been replaced by the grown one while buffer and size are as before. -/
theorem CustomVector.resize_bad_alloc {T : Type} [Inhabited T] (s : St T)
    (hx : s.heap.exhausted = true) (c : Nat)
    (hg : grow_capacity s.self.current_capacity = some c) :
    CustomVector.resize s = .throw .bad_alloc ⟨s.heap, { s.self with current_capacity := c }⟩ := by
  simp only [CustomVector.resize, hg, Heap.new_array, hx, if_true]

/-- C17 (fails on the code): when the allocation inside the growth step of `push_back` fails on
a full container of capacity `c >= 2`, `std::bad_alloc` reaches the caller and buffer and size
are as before, but the capacity is not: it has already been replaced by `c + c / 2`.  The
container is then no longer well-formed, and on a container that was well-formed the next
`push_back` writes outside the array. -/
theorem C17_failed_growth_changes_capacity {T : Type} [Inhabited T] (s : St T) (x y : T)
    (hx : s.heap.exhausted = true) (hwf : wf s)
    (hfull : s.self.current_size = s.self.current_capacity)
    (hmin : 2 ≤ s.self.current_capacity) (hrange : 3 * s.self.current_capacity < 2 ^ 53) :
    ∃ s1, CustomVector.push_back s (.value x) = .throw .bad_alloc s1 ∧
      s1.heap = s.heap ∧ s1.self.data_arr = s.self.data_arr ∧ s1.self.size = s.self.size ∧
      s1.self.capacity = s.self.capacity + s.self.capacity / 2 ∧
      s1.self.capacity ≠ s.self.capacity ∧ ¬ wf s1 ∧
      CustomVector.push_back s1 (.value y) = .undefined := by
  have hres := CustomVector.resize_bad_alloc s hx _ (grow_capacity_exact _ hrange)
  obtain ⟨hcap, hsz, hown | ⟨_, hzero⟩⟩ := hwf
  · obtain ⟨b, hb, hbl⟩ := (owns_buffer_iff s).1 hown
    refine ⟨⟨s.heap, ⟨s.self.data_arr, s.self.current_capacity + s.self.current_capacity / 2,
      s.self.current_size⟩⟩, ?_, rfl, rfl, rfl, rfl, ?_, ?_, ?_⟩
    · unfold CustomVector.push_back
      rw [if_pos hfull, hres]
      rfl
    · simp only [CustomVector.capacity]
      omega
    · rintro ⟨_, _, hown1 | ⟨_, hz⟩⟩
      · obtain ⟨b1, hb1, hbl1⟩ := (owns_buffer_iff _).1 hown1
        simp only at hb1 hbl1
        rw [hb] at hb1
        cases hb1
        omega
      · simp only at hz
        omega
    · have hne : ¬ s.self.current_size =
          s.self.current_capacity + s.self.current_capacity / 2 := by omega
      unfold CustomVector.push_back
      simp only [if_neg hne, Result.bind, Arg.read]
      cases hst : s.heap.store s.self.data_arr s.self.current_size y with
      | none => rfl
      | some h2 =>
        obtain ⟨b1, hb1, hi⟩ := Heap.store_some_inv hst
        rw [hb] at hb1
        cases hb1
        omega
  · omega

/-- Witness of C17: the full container `[1, 2]` (capacity 2) in a free store whose allocator
has no memory; `push_back(3)` throws and leaves capacity 3 over an array of 2 slots. -/
theorem C17_failed_growth_changes_capacity_witness :
    wf (⟨⟨[some [1, 2]], true⟩, ⟨1, 2, 2⟩⟩ : St Int) ∧
      CustomVector.push_back (⟨⟨[some [1, 2]], true⟩, ⟨1, 2, 2⟩⟩ : St Int) (.value 3) =
        .throw .bad_alloc ⟨⟨[some [1, 2]], true⟩, ⟨1, 3, 2⟩⟩ ∧
      CustomVector.push_back (⟨⟨[some [1, 2]], true⟩, ⟨1, 3, 2⟩⟩ : St Int) (.value 4) =
        .undefined := by
  obtain ⟨s1, hrun, _, _, _, _, _, _, hnext⟩ :=
    C17_failed_growth_changes_capacity (⟨⟨[some [1, 2]], true⟩, ⟨1, 2, 2⟩⟩ : St Int) 3 4 rfl
      (by decide) rfl (by decide) (by decide)
  have hd : CustomVector.push_back (⟨⟨[some [1, 2]], true⟩, ⟨1, 2, 2⟩⟩ : St Int) (.value 3) =
      .throw .bad_alloc ⟨⟨[some [1, 2]], true⟩, ⟨1, 3, 2⟩⟩ := by decide
  rw [hd] at hrun
  cases hrun
  exact ⟨by decide, hd, hnext⟩

/-- C18: for every well-formed container of capacity `c` in the range where the product with
1.5 is exact (`3 * c < 2 ^ 53`, allocator with memory), the growth step returns with capacity
`floor(c * 1.5) = c + c / 2`: the fraction is cut off and there is no special case, so capacity 0
stays 0 and capacity 1 stays 1. -/
theorem C18_resize_truncates {T : Type} [Inhabited T] (s : St T)
    (hx : s.heap.exhausted = false) (hwf : wf s)
    (hrange : 3 * s.self.current_capacity < 2 ^ 53) :
    grow_capacity s.self.capacity = some (s.self.capacity + s.self.capacity / 2) ∧
    ∃ s1, CustomVector.resize s = .ok () s1 ∧
      s1.self.capacity = s.self.capacity + s.self.capacity / 2 ∧
      2 * s1.self.capacity ≤ 3 * s.self.capacity ∧
      3 * s.self.capacity < 2 * s1.self.capacity + 2 ∧
      (s.self.capacity = 0 → s1.self.capacity = 0) ∧
      (s.self.capacity = 1 → s1.self.capacity = 1) := by
  refine ⟨grow_capacity_exact _ hrange, ?_⟩
  obtain ⟨h1, b1, hres, _⟩ :=
    CustomVector.resize_spec s hx hwf _ (grow_capacity_exact _ hrange) (by have := hwf.2.1; omega)
  refine ⟨_, hres, ?_⟩
  simp only [CustomVector.capacity]
  refine ⟨trivial, by omega, by omega, ?_, ?_⟩
  · intro hz
    omega
  · intro ho
    omega

/-- Witness of C18: the container made by `CustomVector<int> v(0);` keeps capacity 0 through the
growth step, and the full container `[1, 2, 3, 4, 5]` grows to capacity 7. -/
theorem C18_resize_truncates_witness :
    wf (⟨⟨[some []], false⟩, ⟨1, 0, 0⟩⟩ : St Int) ∧
      (∃ s1, CustomVector.resize (⟨⟨[some []], false⟩, ⟨1, 0, 0⟩⟩ : St Int) = .ok () s1 ∧
        s1.self.capacity = 0) ∧
      CustomVector.resize (full_of [1, 2, 3, 4, 5]) =
        .ok () ⟨⟨[none, some [1, 2, 3, 4, 5, 0, 0]], false⟩, ⟨2, 7, 5⟩⟩ := by
  obtain ⟨_, s1, hrun, _, _, _, hz, _⟩ :=
    C18_resize_truncates (⟨⟨[some []], false⟩, ⟨1, 0, 0⟩⟩ : St Int) rfl (by decide) (by decide)
  exact ⟨by decide, ⟨s1, hrun, hz rfl⟩, by decide⟩

/-! ## Lemmas for sequences of calls -/

/-- When the growth step returns, the new capacity is the one `current_capacity *= 1.5`
computes and the size is as before. -/
theorem CustomVector.resize_ok_inv {T : Type} [Inhabited T] (s s1 : St T)
    (h : CustomVector.resize s = .ok () s1) :
    grow_capacity s.self.current_capacity = some s1.self.current_capacity ∧
      s1.self.current_size = s.self.current_size := by
  unfold CustomVector.resize at h
  split at h
  · cases h
  · rename_i c hg
    simp only at h
    split at h
    · cases h
    · split at h
      · cases h
      · split at h
        · cases h
        · cases h
          exact ⟨hg, rfl⟩

/-- When `push_back` returns, capacity and size are what its statements on the data members
compute. -/
theorem CustomVector.push_back_counters_of_ok {T : Type} [Inhabited T] (s s1 : St T) (x : T)
    (h : CustomVector.push_back s (.value x) = .ok () s1) :
    CustomVector.push_back_counters (s.self.current_capacity, s.self.current_size) =
      some (s1.self.current_capacity, s1.self.current_size) := by
  unfold CustomVector.push_back at h
  by_cases hfull : s.self.current_size = s.self.current_capacity
  · rw [if_pos hfull] at h
    cases hres : CustomVector.resize s with
    | undefined => rw [hres] at h; cases h
    | throw e s2 => rw [hres] at h; cases h
    | ok u s2 =>
      rw [hres] at h
      obtain ⟨hg, hsz⟩ := CustomVector.resize_ok_inv s s2 hres
      simp only [Result.bind, Arg.read] at h
      split at h
      · cases h
      · cases h
        simp only [CustomVector.push_back_counters, if_pos hfull, hg, hsz]
  · rw [if_neg hfull] at h
    simp only [Result.bind, Arg.read] at h
    split at h
    · cases h
    · cases h
      simp only [CustomVector.push_back_counters, if_neg hfull]

/-- A run of `push_back` and `pop_back` calls from a well-formed container of capacity at least
2 returns and keeps the container well-formed with capacity at least 2, as long as the
capacities it can reach stay in the exact range: after `k` calls the capacity is at most
`n + 2 * k` when it was at most `n` at the start. -/
theorem CustomVector.run_ops_keeps_wf {T : Type} [Inhabited T] (n : Nat) :
    ∀ (ops : List (Op T)) (s : St T) (k : Nat), s.heap.exhausted = false → wf s →
      2 ≤ s.self.current_capacity → s.self.current_capacity ≤ n + 2 * k →
      s.self.current_size ≤ k → 3 * (n + 2 * (k + ops.length)) < 2 ^ 53 →
      ∃ s1, CustomVector.run_ops s ops = .ok () s1 ∧ wf s1 ∧ s1.heap.exhausted = false ∧
        2 ≤ s1.self.current_capacity := by
  intro ops
  induction ops with
  | nil =>
    intro s k hx hwf hcap _ _ _
    exact ⟨s, rfl, hwf, hx, hcap⟩
  | cons o os ih =>
    intro s k hx hwf hcap hle hsz hrange
    simp only [List.length_cons] at hrange
    cases o with
    | push x =>
      obtain ⟨s1, hrun, hwf1, hsz1, hcap1, _, _, _, hx1, _⟩ :=
        CustomVector.push_back_ok s x hx hwf (Or.inr hcap) (by omega)
      have hcnt := CustomVector.push_back_counters_of_ok s s1 x hrun
      have hup : s1.self.current_capacity ≤ n + 2 * (k + 1) := by
        simp only [CustomVector.push_back_counters] at hcnt
        by_cases hfull : s.self.current_size = s.self.current_capacity
        · rw [if_pos hfull, grow_capacity_exact _ (by omega)] at hcnt
          simp only [Option.some.injEq, Prod.mk.injEq] at hcnt
          omega
        · rw [if_neg hfull] at hcnt
          simp only [Option.some.injEq, Prod.mk.injEq] at hcnt
          omega
      obtain ⟨s2, hrun2, hres⟩ :=
        ih s1 (k + 1) hx1 hwf1 (by omega) hup (by omega) (by omega)
      exact ⟨s2, by simp only [CustomVector.run_ops, CustomVector.step, hrun, Result.bind, hrun2],
        hres⟩
    | pop =>
      obtain ⟨s1, hrun, hwf1, hheap, _, hcap1, hsz1⟩ := CustomVector.pop_back_wf s hwf
      obtain ⟨s2, hrun2, hres⟩ :=
        ih s1 (k + 1) (by rw [hheap]; exact hx) hwf1 (by omega) (by omega) (by omega) (by omega)
      exact ⟨s2, by simp only [CustomVector.run_ops, CustomVector.step, hrun, Result.bind, hrun2],
        hres⟩

/-- An append that does not grow reads its argument while every array is still in place: when
the argument reads `x`, the call does what `push_back` of the value `x` does. -/
theorem CustomVector.push_back_no_growth {T : Type} [Inhabited T] (s : St T) (a : Arg T) (x : T)
    (hne : s.self.current_size ≠ s.self.current_capacity) (hread : a.read s.heap = some x) :
    CustomVector.push_back s a = CustomVector.push_back s (.value x) := by
  unfold CustomVector.push_back
  rw [if_neg hne]
  simp only [Result.bind]
  rw [hread]
  rfl

/-- An append that grows, with an element of the container itself as the argument (as in
`v.push_back(v[i])`): the growth step has released the array the reference points into before
`data_arr[current_size] = element` reads it, which is undefined behaviour. -/
theorem CustomVector.push_back_own_element_grow {T : Type} [Inhabited T] (s : St T) (i : Nat)
    (hx : s.heap.exhausted = false) (hwf : wf s)
    (hfull : s.self.current_size = s.self.current_capacity)
    (hrange : 3 * s.self.current_capacity < 2 ^ 53) :
    CustomVector.push_back s (.ref ⟨s.self.data_arr, i⟩) = .undefined := by
  obtain ⟨h1, b1, hres, _, _, _, _, hgone, _, _⟩ :=
    CustomVector.resize_spec s hx hwf _ (grow_capacity_exact _ hrange) (by omega)
  unfold CustomVector.push_back
  rw [if_pos hfull, hres]
  simp only [Result.bind, Arg.read, Heap.load, hgone]

/-- C20 (fails on the code for one kind of argument): on every well-formed container with
`capacity() >= 2` (exact range, allocator with memory), `push_back(v)` of a variable or temporary
`v` of the caller returns with `capacity() >= 2` and `size() <= capacity()` still true, a
capacity that is not smaller, a size greater by exactly 1 and `back()` referring to `v`;
`pop_back()` returns with both bounds still true and the capacity unchanged; hence a container
built by the capacity constructor with `N >= 2` keeps `size() <= capacity()` and
`capacity() >= 2` along every sequence of such calls (as long as the capacities it can reach
stay in the exact range).  The same holds for `push_back(v[i])`, whose argument is an element of
the container itself, as long as the container has spare capacity.  But on a full container
`push_back(v[i])` is undefined behaviour: the parameter is a reference, and it is read after the
growth step has released the array it points into. -/
theorem C20_capacity_at_least_two {T : Type} [Inhabited T] (s : St T) (x : T)
    (hx : s.heap.exhausted = false) (hwf : wf s) (hcap : 2 ≤ s.self.current_capacity)
    (hrange : 3 * s.self.current_capacity < 2 ^ 53) :
    (∃ s1, CustomVector.push_back s (.value x) = .ok () s1 ∧
      2 ≤ s1.self.capacity ∧ s1.self.size ≤ s1.self.capacity ∧
      s.self.capacity ≤ s1.self.capacity ∧ s1.self.size = s.self.size + 1 ∧
      ∃ r, CustomVector.back s1 = .ok r s1 ∧ s1.heap.load r.addr r.index = some x) ∧
    (∃ s1, CustomVector.pop_back s = .ok () s1 ∧
      2 ≤ s1.self.capacity ∧ s1.self.size ≤ s1.self.capacity ∧
      s1.self.capacity = s.self.capacity) ∧
    (∀ (h0 : Heap T) (n : Nat) (ops : List (Op T)), h0.exhausted = false → 2 ≤ n →
      3 * (n + 2 * ops.length) < 2 ^ 53 →
      ∃ v h1 s1, CustomVector.ctor_capacity h0 n = .ok v h1 ∧
        CustomVector.run_ops ⟨h1, v⟩ ops = .ok () s1 ∧
        s1.self.size ≤ s1.self.capacity ∧ 2 ≤ s1.self.capacity) ∧
    (∀ i, i < s.self.size → s.self.size < s.self.capacity →
      ∃ e s1, CustomVector.get_index s i = .ok e s ∧
        CustomVector.push_back s (.ref ⟨s.self.data_arr, i⟩) = .ok () s1 ∧
        2 ≤ s1.self.capacity ∧ s1.self.size ≤ s1.self.capacity ∧
        s1.self.capacity = s.self.capacity ∧ s1.self.size = s.self.size + 1 ∧
        ∃ r, CustomVector.back s1 = .ok r s1 ∧ s1.heap.load r.addr r.index = some e) ∧
    (∀ i, i < s.self.size → s.self.size = s.self.capacity →
      (∃ r, CustomVector.operator_index s i = .ok r s ∧
        CustomVector.push_back s (.ref r) = .undefined) ∧
      ∀ s1, CustomVector.push_back s (.ref ⟨s.self.data_arr, i⟩) ≠ .ok () s1) := by
  simp only [CustomVector.capacity, CustomVector.size]
  refine ⟨?_, ?_, ?_, ?_, ?_⟩
  · obtain ⟨s1, hrun, hwf1, hsz1, hcap1, hlast, _⟩ :=
      CustomVector.push_back_ok s x hx hwf (Or.inr hcap) hrange
    have hne : ¬ s1.self.current_size = 0 := by omega
    refine ⟨s1, hrun, by omega, hwf1.2.1, hcap1, hsz1,
      ⟨s1.self.data_arr, s1.self.current_size - 1⟩, ?_, ?_⟩
    · simp only [CustomVector.back, if_neg hne]
    · simp only
      rw [hsz1, Nat.add_sub_cancel]
      exact hlast
  · obtain ⟨s1, hrun, hwf1, _, _, hcap1, _⟩ := CustomVector.pop_back_wf s hwf
    exact ⟨s1, hrun, by omega, hwf1.2.1, hcap1⟩
  · intro h0 n ops hx0 hn hr
    obtain ⟨h1, hnew, hb1, _, hex1, _⟩ := Heap.new_array_spec h0 n hx0
    have hwf0 : wf (⟨h1, ⟨h0.blocks.length + 1, n, 0⟩⟩ : St T) := by
      refine ⟨by simp only; omega, Nat.zero_le _, Or.inl ?_⟩
      simp [owns_buffer, hb1]
    obtain ⟨s1, hrun, hwf1, _, hcap1⟩ :=
      CustomVector.run_ops_keeps_wf n ops ⟨h1, ⟨h0.blocks.length + 1, n, 0⟩⟩ 0 hex1 hwf0 hn
        (by simp) (Nat.le_refl _) (by omega)
    refine ⟨⟨h0.blocks.length + 1, n, 0⟩, h1, s1, ?_, hrun, hwf1.2.1, hcap1⟩
    simp only [CustomVector.ctor_capacity, hnew]
  · intro i hi hroom
    obtain ⟨e, hel⟩ := wf_load s hwf i hi
    have hsame := CustomVector.push_back_no_growth s (.ref ⟨s.self.data_arr, i⟩) e (by omega)
      (by simp only [Arg.read]; exact hel)
    obtain ⟨s1, hrun, hwf1, hsz1, hcap1, hlast, _⟩ :=
      CustomVector.push_back_ok s e hx hwf (Or.inl hroom) hrange
    have hcnt := CustomVector.push_back_counters_of_ok s s1 e hrun
    have hne : ¬ s.self.current_size = s.self.current_capacity := by omega
    simp only [CustomVector.push_back_counters, if_neg hne, Option.some.injEq,
      Prod.mk.injEq] at hcnt
    have hne1 : ¬ s1.self.current_size = 0 := by omega
    refine ⟨e, s1, CustomVector.get_index_ok s i e hi hel, by rw [hsame]; exact hrun, by omega,
      hwf1.2.1, by omega, hsz1, ⟨s1.self.data_arr, s1.self.current_size - 1⟩, ?_, ?_⟩
    · simp only [CustomVector.back, if_neg hne1]
    · simp only
      rw [hsz1, Nat.add_sub_cancel]
      exact hlast
  · intro i hi hfull
    have hu := CustomVector.push_back_own_element_grow s i hx hwf hfull hrange
    have hidx : ¬ (i ≥ s.self.current_size) := by omega
    refine ⟨⟨⟨s.self.data_arr, i⟩, by simp only [CustomVector.operator_index, if_neg hidx], hu⟩,
      ?_⟩
    intro s1 hs1
    rw [hu] at hs1
    cases hs1

/-- Witness of C20: the full container `[5, 6]` (capacity 2) takes `push_back(7)` and grows to
capacity 3, but `push_back(v[0])` on it is undefined behaviour; a container built by
`CustomVector<int> v(2);` runs push 5, push 6, push 7, pop, push 8. -/
theorem C20_capacity_at_least_two_witness :
    wf (full_of [5, 6]) ∧
      CustomVector.push_back (full_of [5, 6]) (.value 7) =
        .ok () ⟨⟨[none, some [5, 6, 7]], false⟩, ⟨2, 3, 3⟩⟩ ∧
      CustomVector.operator_index (full_of [5, 6]) 0 = .ok ⟨1, 0⟩ (full_of [5, 6]) ∧
      (∀ s1, CustomVector.push_back (full_of [5, 6]) (.ref ⟨1, 0⟩) ≠ .ok () s1) ∧
      CustomVector.push_back (full_of [5, 6]) (.ref ⟨1, 0⟩) = .undefined ∧
      ∃ v h1 s1, CustomVector.ctor_capacity empty_heap 2 = .ok v h1 ∧
        CustomVector.run_ops ⟨h1, v⟩ [.push 5, .push 6, .push 7, .pop, .push 8] = .ok () s1 ∧
        s1.self.size ≤ s1.self.capacity ∧ 2 ≤ s1.self.capacity := by
  have h := C20_capacity_at_least_two (full_of [5, 6]) 7 rfl (by decide) (by decide) (by decide)
  exact ⟨by decide, by decide, by decide, (h.2.2.2.2 0 (by decide) rfl).2, by decide,
    h.2.2.1 empty_heap 2 [.push 5, .push 6, .push 7, .pop, .push 8] rfl (by decide) (by decide)⟩

/-- On the path of the default constructor the capacity is 1: a run of `push_back` and
`pop_back` calls from a well-formed container of capacity 1 either is undefined behaviour (a
`push_back` was called while one element was held) or returns a well-formed container of
capacity 1. -/
theorem CustomVector.run_ops_capacity_one {T : Type} [Inhabited T] :
    ∀ (ops : List (Op T)) (s : St T), s.heap.exhausted = false → wf s →
      s.self.current_capacity = 1 →
      CustomVector.run_ops s ops = .undefined ∨
        ∃ s1, CustomVector.run_ops s ops = .ok () s1 ∧ wf s1 ∧ s1.heap.exhausted = false ∧
          s1.self.current_capacity = 1 := by
  intro ops
  induction ops with
  | nil =>
    intro s hx hwf hcap
    exact Or.inr ⟨s, rfl, hwf, hx, hcap⟩
  | cons o os ih =>
    intro s hx hwf hcap
    cases o with
    | push x =>
      by_cases hroom : s.self.current_size < s.self.current_capacity
      · obtain ⟨s1, hrun, hwf1, _, _, _, _, _, hx1, _⟩ :=
          CustomVector.push_back_ok s x hx hwf (Or.inl hroom) (by omega)
        have hcnt := CustomVector.push_back_counters_of_ok s s1 x hrun
        have hcap1 : s1.self.current_capacity = 1 := by
          have hne : ¬ s.self.current_size = s.self.current_capacity := by omega
          simp only [CustomVector.push_back_counters, if_neg hne, Option.some.injEq,
            Prod.mk.injEq] at hcnt
          omega
        rcases ih s1 hx1 hwf1 hcap1 with hu | ⟨s2, hrun2, hres⟩
        · exact Or.inl (by
            simp only [CustomVector.run_ops, CustomVector.step, hrun, Result.bind, hu])
        · exact Or.inr ⟨s2, by
            simp only [CustomVector.run_ops, CustomVector.step, hrun, Result.bind, hrun2], hres⟩
      · have hfull : s.self.current_size = s.self.current_capacity := by
          have := hwf.2.1
          omega
        have hu := CustomVector.push_back_full_small s x hx hwf hfull (by omega)
        exact Or.inl (by simp only [CustomVector.run_ops, CustomVector.step, hu, Result.bind])
    | pop =>
      obtain ⟨s1, hrun, hwf1, hheap, _, hcap1, _⟩ := CustomVector.pop_back_wf s hwf
      rcases ih s1 (by rw [hheap]; exact hx) hwf1 (by omega) with hu | ⟨s2, hrun2, hres⟩
      · exact Or.inl (by
          simp only [CustomVector.run_ops, CustomVector.step, hrun, Result.bind, hu])
      · exact Or.inr ⟨s2, by
          simp only [CustomVector.run_ops, CustomVector.step, hrun, Result.bind, hrun2], hres⟩

/-- Along every sequence of calls, the data members of a container of capacity 1 keep the
capacity at 1: the only statement that assigns the capacity maps 1 to 1. -/
theorem CustomVector.run_counters_capacity_one {T : Type} :
    ∀ (ops : List (Op T)) (n : Nat),
      ∃ m, CustomVector.run_counters (1, n) ops = some (1, m) := by
  intro ops
  induction ops with
  | nil => exact fun n => ⟨n, rfl⟩
  | cons o os ih =>
    intro n
    cases o with
    | push x =>
      have hstep : CustomVector.push_back_counters (1, n) = some (1, (n + 1) % 2 ^ 64) := by
        have hg : grow_capacity 1 = some 1 := by decide
        by_cases hn : n = 1
        · simp only [CustomVector.push_back_counters, hn, if_true, hg]
        · simp only [CustomVector.push_back_counters, if_neg hn]
      obtain ⟨m, hm⟩ := ih ((n + 1) % 2 ^ 64)
      exact ⟨m, by simp only [CustomVector.run_counters, hstep, hm]⟩
    | pop =>
      by_cases hn : n > 0
      · obtain ⟨m, hm⟩ := ih (n - 1)
        exact ⟨m, by simp only [CustomVector.run_counters, CustomVector.pop_back_counters,
          if_pos hn, hm]⟩
      · obtain ⟨m, hm⟩ := ih n
        exact ⟨m, by simp only [CustomVector.run_counters, CustomVector.pop_back_counters,
          if_neg hn, hm]⟩

/-- When a run of calls returns, capacity and size are what the statements on the data members
compute along the run. -/
theorem CustomVector.run_counters_of_ok {T : Type} [Inhabited T] :
    ∀ (ops : List (Op T)) (s s1 : St T), CustomVector.run_ops s ops = .ok () s1 →
      CustomVector.run_counters (s.self.current_capacity, s.self.current_size) ops =
        some (s1.self.current_capacity, s1.self.current_size) := by
  intro ops
  induction ops with
  | nil =>
    intro s s1 h
    simp only [CustomVector.run_ops] at h
    cases h
    rfl
  | cons o os ih =>
    intro s s1 h
    cases o with
    | push x =>
      simp only [CustomVector.run_ops, CustomVector.step] at h
      cases hp : CustomVector.push_back s (.value x) with
      | undefined => rw [hp] at h; cases h
      | throw e s2 => rw [hp] at h; cases h
      | ok u s2 =>
        rw [hp] at h
        simp only [Result.bind] at h
        simp only [CustomVector.run_counters, CustomVector.push_back_counters_of_ok s s2 x hp]
        exact ih s2 s1 h
    | pop =>
      simp only [CustomVector.run_ops, CustomVector.step] at h
      by_cases hn : s.self.current_size > 0
      · simp only [CustomVector.pop_back, if_pos hn, Result.bind] at h
        simp only [CustomVector.run_counters, CustomVector.pop_back_counters, if_pos hn]
        exact ih _ s1 h
      · simp only [CustomVector.pop_back, if_neg hn, Result.bind] at h
        simp only [CustomVector.run_counters, CustomVector.pop_back_counters, if_neg hn]
        exact ih _ s1 h

/-- C16: every container reached from the default constructor by a finite sequence of
`push_back` and `pop_back` calls has `capacity() >= 1`: the constructed container has capacity
1, no run ends in an exception, and every run that returns a container returns one of capacity
at least 1 (a run that pushes onto a container already holding one element is undefined
behaviour and reaches no container). -/
theorem C16_default_path_capacity_at_least_one {T : Type} [Inhabited T] (h : Heap T)
    (ops : List (Op T)) (hx : h.exhausted = false) :
    ∃ v h1, CustomVector.ctor_default h = .ok v h1 ∧ v.capacity ≥ 1 ∧
      (∀ s1, CustomVector.run_ops ⟨h1, v⟩ ops = .ok () s1 → s1.self.capacity ≥ 1) ∧
      (∀ e s1, CustomVector.run_ops ⟨h1, v⟩ ops ≠ .throw e s1) := by
  obtain ⟨h1, hnew, hb1, _, hex1, _⟩ := Heap.new_array_spec h 1 hx
  have hwf0 : wf (⟨h1, ⟨h.blocks.length + 1, 1, 0⟩⟩ : St T) := by
    refine ⟨by simp, by simp, Or.inl ?_⟩
    simp [owns_buffer, hb1]
  refine ⟨⟨h.blocks.length + 1, 1, 0⟩, h1, by simp only [CustomVector.ctor_default, hnew],
    Nat.le_refl _, ?_, ?_⟩
  · intro s1 hrun
    rcases CustomVector.run_ops_capacity_one ops _ hex1 hwf0 rfl with hu | ⟨s2, hrun2, _, _, hc⟩
    · rw [hu] at hrun
      cases hrun
    · rw [hrun2] at hrun
      cases hrun
      simp only [CustomVector.capacity, hc]
      exact Nat.le_refl _
  · intro e s1 hrun
    rcases CustomVector.run_ops_capacity_one ops _ hex1 hwf0 rfl with hu | ⟨s2, hrun2, _⟩
    · rw [hu] at hrun
      cases hrun
    · rw [hrun2] at hrun
      cases hrun

/-- Witness of C16: `CustomVector<int> v;` followed by push 1, pop, pop, push 2 reaches a
container of capacity 1. -/
theorem C16_default_path_capacity_at_least_one_witness :
    empty_heap.exhausted = false ∧
      CustomVector.run_ops (⟨⟨[some [0]], false⟩, ⟨1, 1, 0⟩⟩ : St Int)
          [.push 1, .pop, .pop, .push 2] = .ok () ⟨⟨[some [2]], false⟩, ⟨1, 1, 1⟩⟩ ∧
      (⟨1, 1, 1⟩ : CustomVector).capacity ≥ 1 := by
  obtain ⟨v, h1, hc, _, hinv, _⟩ :=
    C16_default_path_capacity_at_least_one empty_heap [.push 1, .pop, .pop, .push 2] rfl
  have hd : CustomVector.ctor_default empty_heap = .ok ⟨1, 1, 0⟩ ⟨[some [0]], false⟩ := by decide
  rw [hd] at hc
  cases hc
  have hrun : CustomVector.run_ops (⟨⟨[some [0]], false⟩, ⟨1, 1, 0⟩⟩ : St Int)
      [.push 1, .pop, .pop, .push 2] = .ok () ⟨⟨[some [2]], false⟩, ⟨1, 1, 1⟩⟩ := by decide
  exact ⟨rfl, hrun, hinv _ hrun⟩

/-- C19: on a default-constructed container the capacity is 1 and stays 1.  After every call of
every sequence of `push_back` and `pop_back` calls that returns, `capacity()` is 1; the data
members, followed through the statements of the calls alone, keep capacity 1 after every call
of every sequence, because the growth step maps capacity 1 to 1; and the two agree wherever the
run returns.  (A `push_back` onto a container that already holds one element writes outside
the array: the run returns no container from there on.) -/
theorem C19_default_path_capacity_is_one {T : Type} [Inhabited T] (h : Heap T)
    (ops : List (Op T)) (hx : h.exhausted = false) :
    ∃ v h1, CustomVector.ctor_default h = .ok v h1 ∧ v.capacity = 1 ∧ v.size = 0 ∧
      (∀ k s1, CustomVector.run_ops ⟨h1, v⟩ (ops.take k) = .ok () s1 → s1.self.capacity = 1) ∧
      (∀ k, ∃ m, CustomVector.run_counters (v.capacity, v.size) (ops.take k) = some (1, m)) ∧
      (∀ k s1, CustomVector.run_ops ⟨h1, v⟩ (ops.take k) = .ok () s1 →
        CustomVector.run_counters (v.capacity, v.size) (ops.take k) =
          some (s1.self.capacity, s1.self.size)) ∧
      grow_capacity 1 = some 1 := by
  obtain ⟨h1, hnew, hb1, _, hex1, _⟩ := Heap.new_array_spec h 1 hx
  have hwf0 : wf (⟨h1, ⟨h.blocks.length + 1, 1, 0⟩⟩ : St T) := by
    refine ⟨by simp, by simp, Or.inl ?_⟩
    simp [owns_buffer, hb1]
  refine ⟨⟨h.blocks.length + 1, 1, 0⟩, h1, by simp only [CustomVector.ctor_default, hnew],
    rfl, rfl, ?_, ?_, ?_, by decide⟩
  · intro k s1 hrun
    rcases CustomVector.run_ops_capacity_one (ops.take k) _ hex1 hwf0 rfl with
      hu | ⟨s2, hrun2, _, _, hc⟩
    · rw [hu] at hrun
      cases hrun
    · rw [hrun2] at hrun
      cases hrun
      exact hc
  · intro k
    exact CustomVector.run_counters_capacity_one (ops.take k) 0
  · intro k s1 hrun
    exact CustomVector.run_counters_of_ok (ops.take k) _ s1 hrun

/-- Witness of C19 on the calls of test.cpp (lines 35-37): after `push_back(0)` the capacity is
1; the data members read capacity 1 and size 5 after the five pushes, which the run itself does
not survive. -/
theorem C19_default_path_capacity_is_one_witness :
    empty_heap.exhausted = false ∧
      CustomVector.run_ops (⟨⟨[some [0]], false⟩, ⟨1, 1, 0⟩⟩ : St Int) [.push 0] =
        .ok () ⟨⟨[some [0]], false⟩, ⟨1, 1, 1⟩⟩ ∧
      (∃ m, CustomVector.run_counters (1, 0)
        ([.push 0, .push 10, .push 20, .push 30, .push 40] : List (Op Int)) = some (1, m)) ∧
      CustomVector.run_counters (1, 0)
        ([.push 0, .push 10, .push 20, .push 30, .push 40] : List (Op Int)) = some (1, 5) ∧
      CustomVector.run_ops (⟨⟨[some [0]], false⟩, ⟨1, 1, 0⟩⟩ : St Int)
        [.push 0, .push 10, .push 20, .push 30, .push 40] = .undefined := by
  obtain ⟨v, h1, hc, hcap, hsz, _, hcnt, _⟩ :=
    C19_default_path_capacity_is_one empty_heap
      ([.push 0, .push 10, .push 20, .push 30, .push 40] : List (Op Int)) rfl
  have hd : CustomVector.ctor_default empty_heap = .ok ⟨1, 1, 0⟩ ⟨[some [0]], false⟩ := by decide
  rw [hd] at hc
  cases hc
  exact ⟨rfl, by decide, hcnt 5, by decide, by decide⟩

/-! ## Lemmas for iteration -/

/-- The mutating traversal from position `i` of a live array that holds at least `size` slots:
with enough fuel it returns, the object is as before, and exactly the slots `i .. size - 1` have
been replaced by their images under `f`. -/
theorem CustomVector.transform_loop_spec {T : Type} (f : T → T) (v : CustomVector) :
    ∀ (n i fuel : Nat) (h : Heap T) (b : List T), h.block v.data_arr = some b →
      i + n = v.current_size → v.current_size ≤ b.length → n < fuel →
      ∃ h1 b1, CustomVector.transform_loop f fuel ⟨v.data_arr, i⟩ ⟨h, v⟩ = some (.ok () ⟨h1, v⟩) ∧
        h1.block v.data_arr = some b1 ∧ b1.length = b.length ∧
        (∀ j, i ≤ j → j < v.current_size → b1[j]? = (b[j]?).map f) ∧
        (∀ j, j < i ∨ v.current_size ≤ j → b1[j]? = b[j]?) ∧
        (∀ q, q ≠ v.data_arr → h1.block q = h.block q) ∧ h1.exhausted = h.exhausted := by
  intro n
  induction n with
  | zero =>
    intro i fuel h b hb hi _ hfuel
    obtain ⟨k, rfl⟩ : ∃ k, fuel = k + 1 := ⟨fuel - 1, by omega⟩
    have hend : (⟨v.data_arr, i⟩ : Ref) = CustomVector.end_ v := by
      simp only [CustomVector.end_, Ref.mk.injEq, true_and]
      omega
    exact ⟨h, b, by simp only [CustomVector.transform_loop, hend, if_true], hb, rfl,
      fun j h1 h2 => by omega, fun _ _ => rfl, fun _ _ => rfl, rfl⟩
  | succ n ih =>
    intro i fuel h b hb hi hlen hfuel
    obtain ⟨k, rfl⟩ : ∃ k, fuel = k + 1 := ⟨fuel - 1, by omega⟩
    have hib : i < b.length := by omega
    have hend : ¬ (⟨v.data_arr, i⟩ : Ref) = CustomVector.end_ v := by
      simp only [CustomVector.end_, Ref.mk.injEq, true_and]
      omega
    have hload : h.load v.data_arr i = some b[i] := by
      rw [Heap.load_eq h _ i b hb]
      exact List.getElem?_eq_getElem hib
    obtain ⟨h1, hst, hb1, hoth1, hex1, _⟩ := Heap.store_spec h v.data_arr i (f b[i]) b hb hib
    obtain ⟨h2, b2, hrun, hb2, hl2, hnew, hold, hoth2, hex2⟩ :=
      ih (i + 1) k h1 (b.set i (f b[i])) hb1 (by omega) (by simp; omega) (by omega)
    refine ⟨h2, b2, ?_, hb2, by simpa using hl2, ?_, ?_, ?_, by rw [hex2, hex1]⟩
    · simp only [CustomVector.transform_loop, if_neg hend, hload, hst]
      exact hrun
    · intro j hj1 hj2
      rcases Nat.eq_or_lt_of_le hj1 with heq | hlt
      · subst heq
        rw [hold i (Or.inl (by omega))]
        simp [List.getElem?_set, hib]
      · rw [hnew j (by omega) hj2, List.getElem?_set_ne (by omega)]
    · intro j hj
      rw [hold j (by omega), List.getElem?_set_ne (by omega)]
    · intro q hq
      rw [hoth2 q hq, hoth1 q hq]

/-- The read-only traversal from position `i` of a live array that holds at least `size` slots:
with enough fuel it returns, changes nothing, and has visited the slots `i .. size - 1` in
order. -/
theorem CustomVector.visit_loop_spec {T : Type} (v : CustomVector) (h : Heap T) (b : List T)
    (hb : h.block v.data_arr = some b) (hlen : v.current_size ≤ b.length) :
    ∀ (n i fuel : Nat) (acc : List T), i + n = v.current_size → n < fuel →
      CustomVector.visit_loop fuel ⟨v.data_arr, i⟩ ⟨h, v⟩ acc =
        some (.ok (acc ++ (b.take v.current_size).drop i) ⟨h, v⟩) := by
  intro n
  induction n with
  | zero =>
    intro i fuel acc hi hfuel
    obtain ⟨k, rfl⟩ : ∃ k, fuel = k + 1 := ⟨fuel - 1, by omega⟩
    have hend : (⟨v.data_arr, i⟩ : Ref) = CustomVector.end_ v := by
      simp only [CustomVector.end_, Ref.mk.injEq, true_and]
      omega
    have hdrop : (b.take v.current_size).drop i = [] :=
      List.drop_of_length_le (by simp; omega)
    simp only [CustomVector.visit_loop, hend, if_true, hdrop, List.append_nil]
  | succ n ih =>
    intro i fuel acc hi hfuel
    obtain ⟨k, rfl⟩ : ∃ k, fuel = k + 1 := ⟨fuel - 1, by omega⟩
    have hib : i < b.length := by omega
    have hend : ¬ (⟨v.data_arr, i⟩ : Ref) = CustomVector.end_ v := by
      simp only [CustomVector.end_, Ref.mk.injEq, true_and]
      omega
    have hload : h.load v.data_arr i = some b[i] := by
      rw [Heap.load_eq h _ i b hb]
      exact List.getElem?_eq_getElem hib
    have hit : i < (b.take v.current_size).length := by simp; omega
    have hdrop : (b.take v.current_size).drop i =
        b[i] :: (b.take v.current_size).drop (i + 1) := by
      rw [List.drop_eq_getElem_cons hit]
      simp
    simp only [CustomVector.visit_loop, if_neg hend, hload]
    rw [ih (i + 1) k (acc ++ [b[i]]) (by omega) (by omega), hdrop]
    simp

/-- On a default-constructed container every sequence of two or more `push_back` calls is
undefined behaviour. -/
theorem CustomVector.ctor_default_push_all_overflow {T : Type} [Inhabited T] (h : Heap T)
    (x y : T) (rest : List T) (hx : h.exhausted = false) :
    ∃ v h1, CustomVector.ctor_default h = .ok v h1 ∧
      CustomVector.push_all ⟨h1, v⟩ (x :: y :: rest) = .undefined := by
  obtain ⟨h1, hnew, hb1, _, hex1, _⟩ := Heap.new_array_spec h 1 hx
  have hwf0 : wf (⟨h1, ⟨h.blocks.length + 1, 1, 0⟩⟩ : St T) := by
    refine ⟨by simp, by simp, Or.inl ?_⟩
    simp [owns_buffer, hb1]
  obtain ⟨s1, hpush, hwf1, hsz1, _, _, _, _, hex2, _⟩ :=
    CustomVector.push_back_ok ⟨h1, ⟨h.blocks.length + 1, 1, 0⟩⟩ x hex1 hwf0 (Or.inl (by simp))
      (by simp)
  have hcnt := CustomVector.push_back_counters_of_ok _ s1 x hpush
  simp only [CustomVector.push_back_counters, Nat.zero_ne_one, if_false, Option.some.injEq,
    Prod.mk.injEq] at hcnt
  have hover := CustomVector.push_back_full_small s1 y hex2 hwf1 (by omega) (by omega)
  refine ⟨⟨h.blocks.length + 1, 1, 0⟩, h1, by simp only [CustomVector.ctor_default, hnew], ?_⟩
  simp only [CustomVector.push_all, hpush, Result.bind, hover]

/-- The live range of a well-formed container, slot by slot. -/
theorem live_elements_getElem? {T : Type} (s : St T) (hwf : wf s) (j : Nat) :
    (live_elements s)[j]? =
      if j < s.self.current_size then s.heap.load s.self.data_arr j else none := by
  rcases hwf with ⟨_, hsz, hown | ⟨hnull, hzero⟩⟩
  · obtain ⟨b, hb, hbl⟩ := (owns_buffer_iff s).1 hown
    simp only [live_elements, hb, Heap.load, List.getElem?_take]
  · have hs0 : s.self.current_size = 0 := by omega
    simp [live_elements, hnull, Heap.block, hs0]

/-- C15 (fails on the code in its example): on every well-formed container, the traversal from
`begin()` to `end()` returns (given fuel for `size() + 1` loop tests) and visits exactly the
elements at indices `0 .. size() - 1` in order; the mutating pass that replaces each element `e`
by `f(e)` returns, leaves the object (size, capacity, buffer pointer) as it was, and a second
traversal then visits `f` of each original element in order.  But the example of the claim
cannot be built: on a default-constructed container the second `push_back` is already undefined
behaviour. -/
theorem C15_iteration {T : Type} [Inhabited T] (s : St T) (f : T → T) (fuel : Nat)
    (hwf : wf s) (hfuel : s.self.current_size < fuel) :
    (CustomVector.visit_loop fuel (CustomVector.begin_ s.self) s [] =
        some (.ok (live_elements s) s) ∧
      (live_elements s).length = s.self.size ∧
      (∀ i, i < s.self.size →
        ∃ x, (live_elements s)[i]? = some x ∧ CustomVector.get_index s i = .ok x s) ∧
      ∃ s1, CustomVector.transform_loop f fuel (CustomVector.begin_ s.self) s =
          some (.ok () s1) ∧
        s1.self = s.self ∧ s1.self.size = s.self.size ∧ s1.self.capacity = s.self.capacity ∧
        wf s1 ∧ live_elements s1 = (live_elements s).map f ∧
        CustomVector.visit_loop fuel (CustomVector.begin_ s1.self) s1 [] =
          some (.ok ((live_elements s).map f) s1)) ∧
    (∀ (h : Heap T) (x y : T) (rest : List T), h.exhausted = false →
      ∃ v h1, CustomVector.ctor_default h = .ok v h1 ∧
        CustomVector.push_all ⟨h1, v⟩ (x :: y :: rest) = .undefined) := by
  refine ⟨?_, fun h x y rest hx => CustomVector.ctor_default_push_all_overflow h x y rest hx⟩
  have hget : ∀ i, i < s.self.size →
      ∃ x, (live_elements s)[i]? = some x ∧ CustomVector.get_index s i = .ok x s := by
    intro i hi
    simp only [CustomVector.size] at hi
    obtain ⟨x, hxl⟩ := wf_load s hwf i hi
    exact ⟨x, by rw [live_elements_getElem? s hwf i, if_pos hi, hxl],
      CustomVector.get_index_ok s i x hi hxl⟩
  obtain ⟨k, rfl⟩ : ∃ k, fuel = k + 1 := ⟨fuel - 1, by omega⟩
  have hwf' := hwf
  rcases hwf with ⟨hcap, hsz, hown | ⟨hnull, hzero⟩⟩
  · obtain ⟨b, hb, hbl⟩ := (owns_buffer_iff s).1 hown
    have hlive : live_elements s = b.take s.self.current_size := by
      simp only [live_elements, hb]
    have hvisit := CustomVector.visit_loop_spec s.self s.heap b hb (by omega)
      s.self.current_size 0 (k + 1) [] (by omega) hfuel
    obtain ⟨h1, b1, hrun, hb1, hl1, hnew, hold, _, _⟩ :=
      CustomVector.transform_loop_spec f s.self s.self.current_size 0 (k + 1) s.heap b hb
        (by omega) (by omega) hfuel
    have hwf1 : wf (⟨h1, s.self⟩ : St T) :=
      ⟨hcap, hsz, Or.inl (by simp [owns_buffer, hb1, hl1, hbl])⟩
    have hlive1 : live_elements (⟨h1, s.self⟩ : St T) = (live_elements s).map f := by
      rw [hlive]
      simp only [live_elements, hb1]
      apply List.ext_getElem?
      intro j
      simp only [List.getElem?_take, List.getElem?_map]
      by_cases hj : j < s.self.current_size
      · simp only [if_pos hj]
        exact hnew j (Nat.zero_le j) hj
      · simp only [if_neg hj, Option.map_none']
    have hvisit1 := CustomVector.visit_loop_spec s.self h1 b1 hb1 (by omega)
      s.self.current_size 0 (k + 1) [] (by omega) hfuel
    refine ⟨?_, ?_, hget, ⟨h1, s.self⟩, hrun, rfl, rfl, rfl, hwf1, hlive1, ?_⟩
    · rw [hlive]
      simpa using hvisit
    · rw [hlive]
      simp only [List.length_take, CustomVector.size]
      omega
    · rw [← hlive1]
      simp only [live_elements, hb1]
      simpa using hvisit1
  · have hs0 : s.self.current_size = 0 := by omega
    have hlive : live_elements s = [] := by
      simp [live_elements, hnull, Heap.block]
    have hend : CustomVector.begin_ s.self = CustomVector.end_ s.self := by
      simp only [CustomVector.begin_, CustomVector.end_, hs0]
    refine ⟨?_, ?_, hget, s, ?_, rfl, rfl, rfl, hwf', ?_, ?_⟩
    · simp only [CustomVector.visit_loop, hend, if_true, hlive]
    · simp only [hlive, CustomVector.size, hs0, List.length_nil]
    · simp only [CustomVector.transform_loop, hend, if_true]
    · simp only [hlive, List.map_nil]
    · simp only [CustomVector.visit_loop, hend, if_true, hlive, List.map_nil]

/-- Witness of C15 on test.cpp (lines 77-93): on a container that holds `[1, 2, 3, 4, 5]`
doubling yields `[2, 4, 6, 8, 10]`, whose sum is 30; but `CustomVector<int> vec5;` followed by
the five `push_back` calls is undefined behaviour. -/
theorem C15_iteration_witness :
    wf (full_of [1, 2, 3, 4, 5]) ∧
      (∃ s1, CustomVector.transform_loop (fun e => e * 2) 6
          (CustomVector.begin_ (full_of [1, 2, 3, 4, 5]).self) (full_of [1, 2, 3, 4, 5]) =
            some (.ok () s1) ∧
        CustomVector.visit_loop 6 (CustomVector.begin_ s1.self) s1 [] =
          some (.ok ((live_elements (full_of [1, 2, 3, 4, 5])).map (fun e => e * 2)) s1)) ∧
      (live_elements (full_of [1, 2, 3, 4, 5])).map (fun e => e * 2) = [2, 4, 6, 8, 10] ∧
      ([2, 4, 6, 8, 10] : List Int).sum = 30 ∧
      CustomVector.push_all (⟨⟨[some [0]], false⟩, ⟨1, 1, 0⟩⟩ : St Int) [1, 2, 3, 4, 5] =
        .undefined := by
  obtain ⟨⟨_, _, _, s1, hrun, _, _, _, _, _, hsecond⟩, _⟩ :=
    C15_iteration (full_of [1, 2, 3, 4, 5]) (fun e => e * 2) 6 (by decide) (by decide)
  exact ⟨by decide, ⟨s1, hrun, hsecond⟩, by decide, by decide, by decide⟩

end CV
